import Mathlib

/-!
Verification development for the transcript-cleaning engine
(`clean_transcript` in `ucsd_podcast_transcriber.py`).

The engine is shallowly embedded over `List Char`.  Python strings become
`List Char`; Python regular expressions are embedded as executable matchers
that are faithful on the character classes actually used by the program
(ASCII letters, the explicit accented-character class, the four non-Latin
script ranges, ASCII whitespace).  Modelling notes:

* `\s`, `.strip()`, `.split()` are modelled on the ASCII whitespace set
  (space, tab, newline, carriage return, vertical tab, form feed).
* `.lower()` is modelled as ASCII lowercasing; every pattern literal of the
  program is ASCII, so this is faithful for pattern matching.
* the word-character class `\w` used by the `\b` boundaries is modelled as
  ASCII alphanumerics, underscore, and every code point at or above 0x80
  (all characters appearing in the program and in the inputs treated here
  are classified exactly as Python does).
* the two floating-point comparisons of the program
  (`english_word_count / len(words) >= 0.25` and
  `count >= len(remaining) * 0.6`) are modelled by the exact integer
  comparisons `4 * count >= len` and `5 * count >= 3 * len`; for the window
  sizes the program can produce (ratio denominators of realistic size,
  repetition windows of at most 14 sentences) these agree with the IEEE
  double evaluation.
-/

set_option maxRecDepth 100000

/-- Python ASCII whitespace, the class matched by `\s` on the inputs treated
here. -/
def isWS (c : Char) : Bool :=
  c == ' ' || c == '\t' || c == '\n' || c == '\r' || c == '\x0b' || c == '\x0c'

/-- ASCII lowercasing, modelling `str.lower()` on the characters that
matter to the engine. -/
def lowC (c : Char) : Char :=
  if 'A' ≤ c && c ≤ 'Z' then Char.ofNat (c.toNat + 32) else c

/-- Lowercase a character list. -/
def lowerL (cs : List Char) : List Char := cs.map lowC

/-- Drop leading whitespace, modelling `str.lstrip()`. -/
def lstripCh (cs : List Char) : List Char := cs.dropWhile isWS

/-- Drop whitespace at both ends, modelling `str.strip()`. -/
def stripCh (cs : List Char) : List Char :=
  ((cs.dropWhile isWS).reverse.dropWhile isWS).reverse

/-- The `sentence.strip().lower()` combination used by the tail trimmer. -/
def stripLower (cs : List Char) : List Char := lowerL (stripCh cs)

/-- An apostrophe; kept as a named constant so pattern literals can be
spelled without quoting issues. -/
def apoC : Char := Char.ofNat 39

/-- Boolean list-prefix test. -/
def pfxOf : List Char → List Char → Bool
  | [], _ => true
  | _ :: _, [] => false
  | a :: as, b :: bs => a == b && pfxOf as bs

/-- Boolean occurrence (contiguous substring) test. -/
def infOf (p : List Char) : List Char → Bool
  | [] => p.isEmpty
  | c :: rest => pfxOf p (c :: rest) || infOf p rest

/-- Hangul syllables, the class of the first hallucination pattern. -/
def koreanChar (c : Char) : Bool := 0xAC00 ≤ c.toNat && c.toNat ≤ 0xD7A3

/-- CJK ideographs, the class of the second hallucination pattern. -/
def chineseChar (c : Char) : Bool := 0x4E00 ≤ c.toNat && c.toNat ≤ 0x9FAF

/-- Hiragana and Katakana, the class of the third hallucination pattern. -/
def japaneseChar (c : Char) : Bool :=
  (0x3041 ≤ c.toNat && c.toNat ≤ 0x3093) || (0x30A1 ≤ c.toNat && c.toNat ≤ 0x30F3)

/-- Cyrillic letters, the class of the fourth hallucination pattern. -/
def cyrillicChar (c : Char) : Bool :=
  (0x0430 ≤ c.toNat && c.toNat ≤ 0x044F) || (0x0410 ≤ c.toNat && c.toNat ≤ 0x042F)

/-- The accented characters of the fifth hallucination pattern, together
with their uppercase forms (the pattern is applied with IGNORECASE). -/
def accentChar (c : Char) : Bool :=
  ("äöüáéíóúàèìòùâêîôûãõñÄÖÜÁÉÍÓÚÀÈÌÒÙÂÊÎÔÛÃÕÑ".data).contains c

/-- Word characters for the `\b` boundary: ASCII alphanumerics, underscore,
and all higher code points (faithful for the characters in play here). -/
def wordChar (c : Char) : Bool := c.isAlphanum || c == '_' || 0x80 ≤ c.toNat

/-- A word consisting of ASCII letters around exactly one accented
character: exactly the maximal word runs deleted by the pattern
`\b[A-Z]?[a-z]*[äöüáéíóúàèìòùâêîôûãõñ][a-z]*\b` under IGNORECASE. -/
def isAccentWord (w : List Char) : Bool :=
  w.all (fun c => c.isAlpha || accentChar c) && (w.filter accentChar).length == 1

/-- Emit a pending word run, deleting it when it has the accented shape. -/
def flushAcc (acc : List Char) : List Char :=
  let w := acc.reverse
  if isAccentWord w then [] else w

/-- Scanner for the accented-word deletion pass; `acc` is the reversed
word run currently being read. -/
def accGo : List Char → List Char → List Char
  | [], acc => flushAcc acc
  | c :: rest, acc =>
    if wordChar c then accGo rest (c :: acc)
    else flushAcc acc ++ c :: accGo rest []

/-- The accented-word deletion pass of the normalizer. -/
def accentDel (cs : List Char) : List Char := accGo cs []

/-- The Welsh-like gibberish deny list (lowercased; matching is
case-insensitive). -/
def gibWords : List (List Char) :=
  [['s', 'y', apoC, 'n'], "gyms".data, "gyflen".data, "newidda".data,
   "roedd".data, "gwilia".data, "gyfly".data, "canyan".data, "ayag".data,
   "teu".data, "aun".data]

/-- The final single-word deny list (`\bIag\b`, case-insensitive). -/
def iagWords : List (List Char) := ["iag".data]

/-- Case-insensitive prefix test against an already-lowercased literal. -/
def ciPfx : List Char → List Char → Bool
  | [], _ => true
  | _ :: _, [] => false
  | a :: as, b :: bs => a == lowC b && ciPfx as bs

/-- Does the remainder start with a non-word character (or end)?  This is
the trailing `\b` of a deny-list match. -/
def boundaryAfter : List Char → Bool
  | [] => true
  | c :: _ => !wordChar c

/-- Try the deny-list literals, in list order, at the current position;
returns the length of the first literal matching with a trailing boundary. -/
def tryLits : List (List Char) → List Char → Option Nat
  | [], _ => none
  | l :: rest, cs =>
    if ciPfx l cs && boundaryAfter (cs.drop l.length) then some l.length
    else tryLits rest cs

/-- Deny-list deletion scanner.  `prevW` records whether the previous kept
character of the original text is a word character (the leading `\b`).  The
fuel is the length of the text, consumed one step per character. -/
def gibGoF (lits : List (List Char)) : Nat → List Char → Bool → List Char
  | 0, cs, _ => cs
  | _ + 1, [], _ => []
  | fuel + 1, c :: rest, prevW =>
    if prevW then c :: gibGoF lits fuel rest (wordChar c)
    else
      match tryLits lits (c :: rest) with
      | some n => gibGoF lits fuel ((c :: rest).drop n) true
      | none => c :: gibGoF lits fuel rest (wordChar c)

/-- Word-bounded case-insensitive deletion of a list of literals, the model
of `re.sub(r"\b(...)\b", "", text, flags=IGNORECASE)` for word literals. -/
def gibDel (lits : List (List Char)) (cs : List Char) : List Char :=
  gibGoF lits cs.length cs false

/-- The normalizer: the seven hallucination patterns applied in program
order, each replacing its matches by the empty string. -/
def normalizeChars (cs : List Char) : List Char :=
  let t1 := cs.filter (fun c => !koreanChar c)
  let t2 := t1.filter (fun c => !chineseChar c)
  let t3 := t2.filter (fun c => !japaneseChar c)
  let t4 := t3.filter (fun c => !cyrillicChar c)
  let t5 := accentDel t4
  let t6 := gibDel gibWords t5
  gibDel iagWords t6

/-- Sentence-terminal punctuation. -/
def termPunct (c : Char) : Bool := c == '.' || c == '!' || c == '?'

/-- Is the previous original character (head of the reversed accumulator)
terminal punctuation? -/
def headTerm : List Char → Bool
  | [] => false
  | c :: _ => termPunct c

/-- Segmenter scanner, modelling `re.split(r"(?<=[.!?])\s+", text)`.  The
Bool is true while consuming the whitespace run of a split; `acc` is the
reversed current sentence. -/
def segGo : List Char → Bool → List Char → List (List Char)
  | [], _, acc => [acc.reverse]
  | c :: rest, true, acc =>
    if isWS c then segGo rest true acc else segGo rest false [c]
  | c :: rest, false, acc =>
    if isWS c && headTerm acc then acc.reverse :: segGo rest true []
    else segGo rest false (c :: acc)

/-- The sentence sequence of a text. -/
def sentencesOf (cs : List Char) : List (List Char) := segGo cs false []

/-- A tiny regular-expression syntax covering exactly the constructs used
by the lecture-start patterns: literals, sequencing, alternation, option,
and `\s+` / `\s*`. -/
inductive Pat where
  | fail
  | lit (s : List Char)
  | seq (p q : Pat)
  | alt (p q : Pat)
  | opt (p : Pat)
  | wsP
  | wsS

/-- Continuation matcher for `\s*`: hand every split of a leading
whitespace run to the continuation. -/
def wsStarM (k : List Char → Bool) : List Char → Bool
  | [] => k []
  | c :: rest => k (c :: rest) || (isWS c && wsStarM k rest)

/-- Backtracking matcher: `pmatch p cs k` is true when some prefix of `cs`
matches `p` and `k` accepts the corresponding remainder.  This captures
match existence at a position, which is what `re.search` positions are
built from. -/
def pmatch : Pat → List Char → (List Char → Bool) → Bool
  | .fail, _, _ => false
  | .lit s, cs, k => pfxOf s cs && k (cs.drop s.length)
  | .seq p q, cs, k => pmatch p cs fun r => pmatch q r k
  | .alt p q, cs, k => pmatch p cs k || pmatch q cs k
  | .opt p, cs, k => pmatch p cs k || k cs
  | .wsP, cs, k =>
    match cs with
    | [] => false
    | c :: rest => isWS c && wsStarM k rest
  | .wsS, cs, k => wsStarM k cs

/-- Can `p` match starting exactly here? -/
def matchTop (p : Pat) (cs : List Char) : Bool := pmatch p cs fun _ => true

/-- Leftmost match position, modelling `re.search(p, cs).start()`. -/
def searchGo (p : Pat) : List Char → Nat → Option Nat
  | [], n => if matchTop p [] then some n else none
  | c :: rest, n =>
    if matchTop p (c :: rest) then some n else searchGo p rest (n + 1)

/-- Leftmost match position from position zero. -/
def searchPos (p : Pat) (cs : List Char) : Option Nat := searchGo p cs 0

/-- Alternation of a list of patterns (order is irrelevant to existence). -/
def altL : List Pat → Pat
  | [] => .fail
  | [p] => p
  | p :: ps => .alt p (altL ps)

/-- Literal pattern from a string. -/
def litS (s : String) : Pat := .lit s.data

/-- Alternation of word literals. -/
def altW (l : List String) : Pat := altL (l.map litS)

/-- Lecture-start pattern 1. -/
def patP1 : Pat :=
  .seq (.opt (altW ["okay", "alright", "so", "well", "hey", "hi", "hello"]))
    (.seq (.opt (litS ",")) (.seq .wsS (litS "my friends")))

/-- Lecture-start pattern 2. -/
def patP2 : Pat :=
  .seq (.opt (altW ["okay", "alright", "so", "well"]))
    (.seq (.opt (litS ",")) (.seq .wsS (litS "today")))

/-- Lecture-start pattern 3. -/
def patP3 : Pat := .seq (litS "welcome") (.seq .wsP (altW ["to", "back", "everyone"]))

/-- Lecture-start pattern 4. -/
def patP4 : Pat :=
  .seq (.opt (.seq (litS "good") .wsP)) (altW ["morning", "afternoon", "evening"])

/-- Lecture-start pattern 5. -/
def patP5 : Pat :=
  .seq (.lit ("let".data ++ [apoC, 's']))
    (.seq .wsP (altL [.seq (litS "get") (.seq .wsP (litS "started")),
      litS "begin", litS "start", litS "talk", litS "look"]))

/-- Lecture-start pattern 6. -/
def patP6 : Pat :=
  .seq (.lit ("we".data ++ [apoC] ++ "re".data))
    (.seq .wsP (.seq (litS "going") (.seq .wsP (litS "to"))))

/-- Lecture-start pattern 7. -/
def patP7 : Pat :=
  .seq (litS "going")
    (.seq .wsP (.seq (litS "to") (.seq .wsP (.seq (litS "be") (.seq .wsP (litS "a"))))))

/-- Lecture-start pattern 8. -/
def patP8 : Pat := .seq (litS "hello") (.seq .wsP (altW ["everyone", "everybody", "class"]))

/-- The ordered lecture-start pattern list. -/
def startPats : List Pat := [patP1, patP2, patP3, patP4, patP5, patP6, patP7, patP8]

/-- First pattern in list order with a match; its leftmost position.  This
is the inner loop over `lecture_start_patterns`. -/
def firstSearch : List Pat → List Char → Option Nat
  | [], _ => none
  | p :: ps, cs =>
    match searchPos p cs with
    | some n => some n
    | none => firstSearch ps cs

/-- Match position of the first matching lecture-start pattern on a
lowercased sentence. -/
def firstStartMatch (low : List Char) : Option Nat := firstSearch startPats low

/-- The common-English-word dictionary of the coherence classifier. -/
def commonWords : List (List Char) :=
  ["the", "a", "an", "is", "are", "was", "were", "be", "been",
   "have", "has", "had", "do", "does", "did", "will", "would",
   "could", "should", "may", "might", "must", "shall", "can",
   "to", "of", "in", "for", "on", "with", "at", "by", "from",
   "this", "that", "these", "those", "it", "its", "you", "your",
   "we", "our", "they", "their", "i", "my", "me", "he", "she",
   "and", "or", "but", "if", "so", "as", "what", "which", "who",
   "how", "when", "where", "why", "all", "each", "every", "both",
   "few", "more", "most", "other", "some", "such", "no", "not",
   "only", "same", "than", "too", "very", "just", "also", "now",
   "here", "there", "then", "once", "going", "want", "need",
   "like", "know", "think", "see", "get", "make", "take", "come",
   "right", "okay", "well", "yeah", "yes", "really",
   "today", "already", "use", "using", "copy", "local", "laptop"].map String.data

/-- Maximal word-character runs of a text; `acc` is the reversed pending
run. -/
def runsGo : List Char → List Char → List (List Char)
  | [], acc => if acc.isEmpty then [] else [acc.reverse]
  | c :: rest, acc =>
    if wordChar c then runsGo rest (c :: acc)
    else if acc.isEmpty then runsGo rest [] else acc.reverse :: runsGo rest []

/-- Maximal word runs of a text. -/
def wordRuns (cs : List Char) : List (List Char) := runsGo cs []

/-- The alphabetic word tokens `re.findall(r"\b[a-zA-Z]+\b", s)`: the
maximal word runs consisting entirely of ASCII letters. -/
def alphaWords (cs : List Char) : List (List Char) :=
  (wordRuns cs).filter (fun w => w.all Char.isAlpha)

/-- The coherence classifier `is_coherent_english`. -/
def isCoherentEnglish (s : List Char) : Bool :=
  let t := stripCh s
  if t.length < 10 then false
  else
    let ws := alphaWords (lowerL t)
    if ws.length < 3 then false
    else
      let cnt := (ws.filter (fun w => commonWords.contains w)).length
      if 3 ≤ cnt then true
      else if 0 < ws.length && 4 * cnt ≥ ws.length then true
      else false

/-- The start-boundary loop.  `all` is the whole sentence list (needed for
the two-sentence lookahead), `rest` the sentences still to scan, `i` the
index of the head of `rest`, and `si` the currently recorded
`start_index` (the recorded character offset is provably zero whenever a
new iteration begins, so it is not carried). -/
def startGo (all : List (List Char)) : List (List Char) → Nat → Nat → Nat × Nat
  | [], _, si => (si, 0)
  | s :: rest, i, si =>
    match firstStartMatch (lowerL s) with
    | some o =>
      if 0 < o then (i, o)
      else if isCoherentEnglish s && decide (50 < s.length) then
        if i + 2 < all.length then
          if isCoherentEnglish (all.getD (i + 1) []) ||
             isCoherentEnglish (all.getD (i + 2) []) then (i, 0)
          else startGo all rest (i + 1) i
        else (i, 0)
      else startGo all rest (i + 1) i
    | none =>
      if isCoherentEnglish s && decide (50 < s.length) then
        if i + 2 < all.length then
          if isCoherentEnglish (all.getD (i + 1) []) ||
             isCoherentEnglish (all.getD (i + 2) []) then (i, 0)
          else startGo all rest (i + 1) si
        else (i, 0)
      else startGo all rest (i + 1) si

/-- The start-boundary detector: `(start_index, start_char_offset)`. -/
def findStart (sents : List (List Char)) : Nat × Nat := startGo sents sents 0 0

/-- The post-lecture chatter test on a stripped, lowercased sentence: the
anchored patterns are full-string tests, the others substring tests. -/
def chatterHit (s : List Char) : Bool :=
  s == "hey".data || s == "hey.".data ||
  s == "okay".data || s == "okay.".data ||
  s == "yeah".data || s == "yeah.".data ||
  s == "right".data || s == "right.".data ||
  s == "sure".data || s == "sure.".data ||
  infOf "am i allowed to".data s ||
  infOf "can i ask".data s || infOf "can i get".data s ||
  infOf "i love to have".data s ||
  infOf "this is like doing".data s

/-- Backward chatter scan of `range(len(sentences)-1, max(0, len-30), -1)`:
visits `i, i-1, ..., lo+1`, overwriting `cur` at every hit, so the final
value is the hit of smallest index. -/
def chatGo (sents : List (List Char)) (lo : Nat) : Nat → Option Nat → Option Nat
  | 0, cur => cur
  | j + 1, cur =>
    if lo < j + 1 then
      chatGo sents lo j
        (if chatterHit (stripLower (sents.getD (j + 1) [])) then some (j + 1) else cur)
    else cur

/-- The chatter scan of Tail-Trimmer Phase A. -/
def chatterIdx (sents : List (List Char)) : Option Nat :=
  chatGo sents (sents.length - 30) (sents.length - 1) none

/-- The end index after Phase A; `if chatter_start_index:` is a Python
truthiness test, so index zero (never actually produced) would be treated
as no hit. -/
def endAfterA (sents : List (List Char)) : Nat :=
  match chatterIdx sents with
  | some c => if c == 0 then sents.length else c
  | none => sents.length

/-- The filler-phrase set `thank_you_variants`. -/
def fillerList : List (List Char) :=
  ["thank you.", "thank you", "thanks.", "thanks",
   "thank you!", "thanks!", "bye.", "bye", "goodbye.",
   "goodbye", "see you.", "see you", "okay.", "okay",
   "alright.", "alright", "hey.", "hey", "yeah.", "yeah"].map String.data

/-- The informal-indicator word list. -/
def informalList : List (List Char) :=
  ["okay", "alright", "hey", "yeah", "um", "uh",
   "like", "i mean", "you know", "right"].map String.data

/-- Whitespace-splitting into words (no empty tokens), modelling
`str.split()`; `acc` is the reversed pending token. -/
def splitWSGo : List Char → List Char → List (List Char)
  | [], acc => if acc.isEmpty then [] else [acc.reverse]
  | c :: rest, acc =>
    if isWS c then
      if acc.isEmpty then splitWSGo rest [] else acc.reverse :: splitWSGo rest []
    else splitWSGo rest (c :: acc)

/-- Whitespace word split. -/
def splitWS (cs : List Char) : List (List Char) := splitWSGo cs []

/-- Should the last kept sentence (already stripped and lowercased) be
dropped by Phase B? -/
def phaseBDrop (last : List Char) : Bool :=
  fillerList.contains last ||
  decide (last.length < 15) ||
  (decide ((splitWS last).length < 10) &&
    decide (2 ≤ (informalList.filter (fun ind => infOf ind last)).length))

/-- Phase B, the iterative trailing strip: while `end > start`, drop the
last kept sentence while it is filler, short, or informal. -/
def phaseB (sents : List (List Char)) (si : Nat) : Nat → Nat
  | 0 => 0
  | e + 1 =>
    if si < e + 1 then
      if phaseBDrop (stripLower (sents.getD e [])) then phaseB sents si e
      else e + 1
    else e + 1

/-- Highest multiplicity in a list, the count returned by
`Counter(l).most_common(1)[0]`. -/
def maxCount (l : List (List Char)) : Nat :=
  (l.map (fun x => l.count x)).foldr max 0

/-- Does the window `sentences[i:e]` trigger the repetition cut? -/
def repTrigger (sents : List (List Char)) (e i : Nat) : Bool :=
  let remaining := ((sents.drop i).take (e - i)).map stripLower
  decide (3 ≤ remaining.length) && decide (5 * maxCount remaining ≥ 3 * remaining.length)

/-- Backward scan of the repetition collapser over
`range(e-1, max(e-15, start), -1)`: cut at the first (largest) `i` whose
window is at least sixty percent one normalized sentence. -/
def repGo (sents : List (List Char)) (lo e : Nat) : Nat → Nat
  | 0 => e
  | i + 1 =>
    if lo < i + 1 then
      if repTrigger sents e (i + 1) then i + 1 else repGo sents lo e i
    else e

/-- The repetition collapser, applied only to ranges longer than five. -/
def endAfterRep (sents : List (List Char)) (si e : Nat) : Nat :=
  if si + 5 < e then repGo sents (max (e - 15) si) e (e - 1) else e

/-- Collapse every whitespace run to a single space,
`re.sub(r"\s+", " ", t)`; the Bool records being inside a run. -/
def cwsGo : List Char → Bool → List Char
  | [], _ => []
  | c :: rest, inWs =>
    if isWS c then
      if inWs then cwsGo rest true else ' ' :: cwsGo rest true
    else c :: cwsGo rest false

/-- Whitespace collapsing. -/
def collapseWS (cs : List Char) : List Char := cwsGo cs false

/-- Leading comma / period / whitespace removal,
`re.sub(r"^[,.\s]+", "", t)`. -/
def stripLeadPunct (cs : List Char) : List Char :=
  cs.dropWhile (fun c => c == ',' || c == '.' || isWS c)

/-- Join sentences with single spaces, `" ".join(l)`. -/
def joinSp : List (List Char) → List Char
  | [] => []
  | [x] => x
  | x :: xs => x ++ ' ' :: joinSp xs

/-- The assembler: slice the kept range, trim the recorded character
offset (plus leading whitespace) from the first kept sentence, join, then
collapse whitespace, strip, and drop leading stray punctuation. -/
def assembleOut (sents : List (List Char)) (si off e : Nat) : List Char :=
  let kept := (sents.drop si).take (e - si)
  let kept2 :=
    match kept with
    | [] => ([] : List (List Char))
    | f :: rest => if 0 < off then lstripCh (f.drop off) :: rest else f :: rest
  stripLeadPunct (stripCh (collapseWS (joinSp kept2)))

/-- The whole cleaning engine on character lists. -/
def cleanChars (cs : List Char) : List Char :=
  let normed := normalizeChars cs
  let sents := sentencesOf normed
  let st := findStart sents
  let eA := endAfterA sents
  let eB := phaseB sents st.1 eA
  let eR := endAfterRep sents st.1 eB
  assembleOut sents st.1 st.2 eR

/-- The engine entry point `clean_transcript`. -/
def clean_transcript (s : String) : String := String.mk (cleanChars s.data)

/-- The String-level normalizer (the state of the text after the
hallucination-pattern deletions). -/
def normalize_transcript (s : String) : String := String.mk (normalizeChars s.data)

/-- Checked list indexing: the model of a Python `l[i]` access, which
raises `IndexError` when out of range. -/
def getE {α : Type} (l : List α) (i : Nat) : Except String α :=
  match l.get? i with
  | some a => .ok a
  | none => .error "IndexError"

/-- Checked ratio comparison: the model of
`english_word_count / len(words) >= 0.25`, which raises on a zero
denominator. -/
def ratioGE25E (cnt n : Nat) : Except String Bool :=
  if n == 0 then .error "ZeroDivisionError" else .ok (decide (4 * cnt ≥ n))

/-- Checked highest multiplicity: the model of
`Counter(l).most_common(1)[0]`, which raises on an empty counter. -/
def mostCommonCountE (l : List (List Char)) : Except String Nat :=
  if l.isEmpty then .error "IndexError" else .ok (maxCount l)

/-- The coherence classifier with its division performed as a checked
operation. -/
def isCoherentEnglishE (s : List Char) : Except String Bool :=
  let t := stripCh s
  if t.length < 10 then .ok false
  else
    let ws := alphaWords (lowerL t)
    if ws.length < 3 then .ok false
    else
      let cnt := (ws.filter (fun w => commonWords.contains w)).length
      if 3 ≤ cnt then .ok true
      else if 0 < ws.length then ratioGE25E cnt ws.length
      else .ok false

/-- The start-boundary loop with every sentence access checked. -/
def startGoE (all : List (List Char)) :
    List (List Char) → Nat → Nat → Except String (Nat × Nat)
  | [], _, si => .ok (si, 0)
  | s :: rest, i, si =>
    match firstStartMatch (lowerL s) with
    | some o =>
      if 0 < o then .ok (i, o)
      else do
        let c0 ← isCoherentEnglishE s
        if c0 && decide (50 < s.length) then
          if i + 2 < all.length then do
            let a ← getE all (i + 1)
            let b ← getE all (i + 2)
            let c1 ← isCoherentEnglishE a
            let c2 ← isCoherentEnglishE b
            if c1 || c2 then .ok (i, 0)
            else startGoE all rest (i + 1) i
          else .ok (i, 0)
        else startGoE all rest (i + 1) i
    | none => do
      let c0 ← isCoherentEnglishE s
      if c0 && decide (50 < s.length) then
        if i + 2 < all.length then do
          let a ← getE all (i + 1)
          let b ← getE all (i + 2)
          let c1 ← isCoherentEnglishE a
          let c2 ← isCoherentEnglishE b
          if c1 || c2 then .ok (i, 0)
          else startGoE all rest (i + 1) si
        else .ok (i, 0)
      else startGoE all rest (i + 1) si

/-- The chatter scan with every sentence access checked. -/
def chatGoE (sents : List (List Char)) (lo : Nat) :
    Nat → Option Nat → Except String (Option Nat)
  | 0, cur => .ok cur
  | j + 1, cur =>
    if lo < j + 1 then do
      let s ← getE sents (j + 1)
      chatGoE sents lo j (if chatterHit (stripLower s) then some (j + 1) else cur)
    else .ok cur

/-- Phase B with its sentence access checked. -/
def phaseBE (sents : List (List Char)) (si : Nat) : Nat → Except String Nat
  | 0 => .ok 0
  | e + 1 =>
    if si < e + 1 then do
      let s ← getE sents e
      if phaseBDrop (stripLower s) then phaseBE sents si e
      else .ok (e + 1)
    else .ok (e + 1)

/-- The repetition-window test with the counter access checked. -/
def repTriggerE (sents : List (List Char)) (e i : Nat) : Except String Bool :=
  let remaining := ((sents.drop i).take (e - i)).map stripLower
  if 3 ≤ remaining.length then do
    let mc ← mostCommonCountE remaining
    .ok (decide (5 * mc ≥ 3 * remaining.length))
  else .ok false

/-- The repetition scan with checked operations. -/
def repGoE (sents : List (List Char)) (lo e : Nat) : Nat → Except String Nat
  | 0 => .ok e
  | i + 1 =>
    if lo < i + 1 then do
      let t ← repTriggerE sents e (i + 1)
      if t then .ok (i + 1) else repGoE sents lo e i
    else .ok e

/-- The assembler with its first-sentence access checked (the access to
the first kept sentence is guarded, as in the program, by the kept slice
being nonempty). -/
def assembleOutE (sents : List (List Char)) (si off e : Nat) :
    Except String (List Char) :=
  match (sents.drop si).take (e - si) with
  | [] => pure (stripLeadPunct (stripCh (collapseWS (joinSp ([] : List (List Char))))))
  | f :: rest =>
    if 0 < off then do
      let f0 ← getE (f :: rest) 0
      pure (stripLeadPunct (stripCh (collapseWS (joinSp (lstripCh (f0.drop off) :: rest)))))
    else pure (stripLeadPunct (stripCh (collapseWS (joinSp (f :: rest)))))

/-- The whole engine with every Python indexing, counter access, and
division modelled as a checked operation that can fail. -/
def cleanCharsE (cs : List Char) : Except String (List Char) := do
  let normed := normalizeChars cs
  let sents := sentencesOf normed
  let st ← startGoE sents sents 0 0
  let chat ← chatGoE sents (sents.length - 30) (sents.length - 1) none
  let eA := match chat with
    | some c => if c == 0 then sents.length else c
    | none => sents.length
  let eB ← phaseBE sents st.1 eA
  let eR ←
    if st.1 + 5 < eB then repGoE sents (max (eB - 15) st.1) eB (eB - 1)
    else pure eB
  assembleOutE sents st.1 st.2 eR

/-- The checked engine on strings. -/
def clean_transcriptE (s : String) : Except String String :=
  (cleanCharsE s.data).map String.mk

/-- Does the recorded match of the first matching pattern have a positive
starting offset? -/
def posOff (m : Option Nat) : Bool :=
  match m with
  | some o => decide (0 < o)
  | none => false

/-- The coherence-fallback break condition at sentence `i`. -/
def fbBreakB (all : List (List Char)) (i : Nat) (s : List Char) : Bool :=
  isCoherentEnglish s && decide (50 < s.length) &&
    (if i + 2 < all.length then
      isCoherentEnglish (all.getD (i + 1) []) || isCoherentEnglish (all.getD (i + 2) [])
    else true)

/-- Does the start-boundary scan stop at sentence `i` (positive-offset
pattern match, or coherence-fallback break)? -/
def stopB (all : List (List Char)) (i : Nat) (s : List Char) : Bool :=
  posOff (firstStartMatch (lowerL s)) || fbBreakB all i s

/-- An apostrophe as a one-character string, for concrete inputs. -/
def apoS : String := String.mk [apoC]

/-- The worked example of the specification. -/
def c3Input : String :=
  "大家好 Hello everyone, welcome to today" ++ apoS ++
  "s lecture on graphs and trees, this is going to be a great class. " ++
  "We will cover traversal algorithms. Thank you. Thank you. Thank you."

/-- The expected output of the worked example. -/
def c3Expected : String :=
  "today" ++ apoS ++
  "s lecture on graphs and trees, this is going to be a great class. " ++
  "We will cover traversal algorithms."

/-- Input whose chatter scan hits a sentence before the detected start. -/
def c4Input : String := "Blah. Hey. Blah today we talk."

/-- Input whose first sentence matches a lecture-start pattern at
character position zero. -/
def c5Input : String := "Welcome to class everyone. Blah today is fun."

/-- Input for the amended first-match rule: the positive-offset match at
sentence one decides the start. -/
def c5Witness : String := "Blah. Blah today we talk."

/-- Input whose coherence fallback fires before a later pattern match. -/
def c6Input : String :=
  "We think that all of the students here would like it a lot. " ++
  "They all think it is a good idea for sure. Blah today is fun."

/-- A filler-only input. -/
def c8Input : String := "Thank you. Okay. BYE."

/-- Input on which a second cleaning pass shrinks the output further. -/
def c9Input : String := "Blah today is nice. Blah welcome to class."

/-- Input whose accented word (two accented characters) survives cleaning
unchanged. -/
def c10Input : String :=
  "We all think that the word séé is a good one for the class. " ++
  "It is the best one we have seen here."

theorem length_dropWhile_le (p : Char → Bool) :
    ∀ l : List Char, (l.dropWhile p).length ≤ l.length := by
  intro l
  induction l with
  | nil => simp [List.dropWhile]
  | cons c rest ih =>
    simp only [List.dropWhile]
    cases p c
    · simp
    · simp only [List.length_cons]
      omega

theorem lstripCh_le (l : List Char) : (lstripCh l).length ≤ l.length :=
  length_dropWhile_le isWS l

theorem stripCh_le (l : List Char) : (stripCh l).length ≤ l.length := by
  unfold stripCh
  calc ((l.dropWhile isWS).reverse.dropWhile isWS).reverse.length
      = ((l.dropWhile isWS).reverse.dropWhile isWS).length := List.length_reverse _
    _ ≤ (l.dropWhile isWS).reverse.length := length_dropWhile_le isWS _
    _ = (l.dropWhile isWS).length := List.length_reverse _
    _ ≤ l.length := length_dropWhile_le isWS l

theorem stripLeadPunct_le (l : List Char) : (stripLeadPunct l).length ≤ l.length :=
  length_dropWhile_le _ l

theorem cwsGo_le : ∀ (l : List Char) (b : Bool), (cwsGo l b).length ≤ l.length := by
  intro l
  induction l with
  | nil => intro b; simp [cwsGo]
  | cons c rest ih =>
    intro b
    simp only [cwsGo]
    cases hc : isWS c
    · simpa using Nat.succ_le_succ (ih false)
    · cases b
      · simpa using Nat.succ_le_succ (ih true)
      · simpa using Nat.le_succ_of_le (ih true)

theorem collapseWS_le (l : List Char) : (collapseWS l).length ≤ l.length :=
  cwsGo_le l false

/-- Total length of the members of a list of character lists. -/
def sumLens (l : List (List Char)) : Nat := (l.map List.length).sum

theorem sumLens_cons (x : List Char) (l : List (List Char)) :
    sumLens (x :: l) = x.length + sumLens l := by
  simp [sumLens]

theorem sumLens_take_le (l : List (List Char)) : ∀ n, sumLens (l.take n) ≤ sumLens l := by
  induction l with
  | nil => intro n; simp [sumLens]
  | cons x rest ih =>
    intro n
    cases n with
    | zero => simp [sumLens]
    | succ m =>
      simp only [List.take_succ_cons, sumLens_cons]
      exact Nat.add_le_add_left (ih m) _

theorem sumLens_drop_le (l : List (List Char)) : ∀ n, sumLens (l.drop n) ≤ sumLens l := by
  induction l with
  | nil => intro n; simp [sumLens]
  | cons x rest ih =>
    intro n
    cases n with
    | zero => exact Nat.le_refl _
    | succ m =>
      simp only [List.drop_succ_cons, sumLens_cons]
      exact Nat.le_trans (ih m) (Nat.le_add_left _ _)

theorem segGo_ne_nil : ∀ (cs : List Char) (m : Bool) (acc : List Char), segGo cs m acc ≠ [] := by
  intro cs
  induction cs with
  | nil => intro m acc; cases m <;> simp [segGo]
  | cons c rest ih =>
    intro m acc
    cases m
    · simp only [segGo]
      split
      · exact List.cons_ne_nil _ _
      · exact ih false (c :: acc)
    · simp only [segGo]
      split
      · exact ih true acc
      · exact ih false [c]

theorem segGo_len : ∀ (cs : List Char) (m : Bool) (acc : List Char),
    sumLens (segGo cs m acc) + (segGo cs m acc).length ≤ cs.length + acc.length + 1 := by
  intro cs
  induction cs with
  | nil =>
    intro m acc
    cases m <;> simp [segGo, sumLens]
  | cons c rest ih =>
    intro m acc
    cases m
    · simp only [segGo]
      split
      · have h := ih true []
        have hne := segGo_ne_nil rest true []
        have hlen : 1 ≤ (segGo rest true []).length := by
          cases hs : segGo rest true [] with
          | nil => exact absurd hs hne
          | cons a b => simp
        simp only [sumLens_cons, List.length_cons, List.length_reverse, List.length_nil] at h ⊢
        omega
      · have h := ih false (c :: acc)
        simp only [List.length_cons] at h ⊢
        omega
    · simp only [segGo]
      split
      · have h := ih true acc
        simp only [List.length_cons] at h ⊢
        omega
      · have h := ih false [c]
        simp only [List.length_cons, List.length_nil] at h ⊢
        omega

theorem sentencesOf_len (cs : List Char) :
    sumLens (sentencesOf cs) + (sentencesOf cs).length ≤ cs.length + 1 := by
  have h := segGo_len cs false []
  simpa [sentencesOf] using h

theorem joinSp_len : ∀ l : List (List Char), l ≠ [] →
    (joinSp l).length + 1 = sumLens l + l.length := by
  intro l
  induction l with
  | nil => intro h; exact absurd rfl h
  | cons x rest ih =>
    intro _
    cases rest with
    | nil => simp [joinSp, sumLens]
    | cons y t =>
      have h := ih (List.cons_ne_nil _ _)
      simp only [joinSp, List.length_append, List.length_cons, sumLens_cons] at h ⊢
      omega

theorem joinSp_len_le (l : List (List Char)) : (joinSp l).length + 1 ≤ sumLens l + l.length + 1 := by
  cases l with
  | nil => simp [joinSp]
  | cons x rest =>
    have h := joinSp_len (x :: rest) (List.cons_ne_nil _ _)
    omega

theorem joinSp_head_le (f g : List Char) (rest : List (List Char)) (h : g.length ≤ f.length) :
    (joinSp (g :: rest)).length ≤ (joinSp (f :: rest)).length := by
  cases rest with
  | nil => simpa [joinSp] using h
  | cons y t => simp only [joinSp, List.length_append, List.length_cons]; omega

theorem assembleOut_le (sents : List (List Char)) (si off e : Nat) (hne : sents ≠ []) :
    (assembleOut sents si off e).length + 1 ≤ sumLens sents + sents.length := by
  have hlen1 : 1 ≤ sents.length := by
    cases sents with
    | nil => exact absurd rfl hne
    | cons a b => simp
  unfold assembleOut
  cases hk : (sents.drop si).take (e - si) with
  | nil =>
    have : (stripLeadPunct (stripCh (collapseWS (joinSp ([] : List (List Char)))))).length = 0 := by
      simp [joinSp, collapseWS, cwsGo, stripCh, stripLeadPunct, List.dropWhile]
    simp only [this]
    omega
  | cons f rest =>
    have hsub1 : sumLens (f :: rest) ≤ sumLens sents := by
      calc sumLens (f :: rest) = sumLens ((sents.drop si).take (e - si)) := by rw [hk]
        _ ≤ sumLens (sents.drop si) := sumLens_take_le _ _
        _ ≤ sumLens sents := sumLens_drop_le _ _
    have hsub2 : (f :: rest).length ≤ sents.length := by
      calc (f :: rest).length = ((sents.drop si).take (e - si)).length := by rw [hk]
        _ ≤ (sents.drop si).length := by
            rw [List.length_take]; exact Nat.min_le_right _ _
        _ ≤ sents.length := by rw [List.length_drop]; omega
    set kept2 : List (List Char) :=
      if 0 < off then lstripCh (f.drop off) :: rest else f :: rest with hk2
    have hhead : (joinSp kept2).length ≤ (joinSp (f :: rest)).length := by
      rw [hk2]
      split
      · refine joinSp_head_le f _ rest ?_
        calc (lstripCh (f.drop off)).length ≤ (f.drop off).length := lstripCh_le _
          _ ≤ f.length := by rw [List.length_drop]; omega
      · exact Nat.le_refl _
    have hjoin : (joinSp (f :: rest)).length + 1 = sumLens (f :: rest) + (f :: rest).length :=
      joinSp_len _ (List.cons_ne_nil _ _)
    have hout : (stripLeadPunct (stripCh (collapseWS (joinSp kept2)))).length ≤
        (joinSp kept2).length := by
      calc (stripLeadPunct (stripCh (collapseWS (joinSp kept2)))).length
          ≤ (stripCh (collapseWS (joinSp kept2))).length := stripLeadPunct_le _
        _ ≤ (collapseWS (joinSp kept2)).length := stripCh_le _
        _ ≤ (joinSp kept2).length := collapseWS_le _
    simp only [hk2] at hout hhead ⊢
    omega

theorem flushAcc_le (acc : List Char) : (flushAcc acc).length ≤ acc.length := by
  unfold flushAcc
  by_cases h : isAccentWord acc.reverse = true
  · simp [h]
  · simp [h]

theorem accGo_le : ∀ (cs acc : List Char), (accGo cs acc).length ≤ cs.length + acc.length := by
  intro cs
  induction cs with
  | nil => intro acc; simpa using flushAcc_le acc
  | cons c rest ih =>
    intro acc
    simp only [accGo]
    split
    · have h := ih (c :: acc)
      simp only [List.length_cons] at h ⊢
      omega
    · have h1 := flushAcc_le acc
      have h2 := ih []
      simp only [List.length_append, List.length_cons, List.length_nil] at h2 ⊢
      omega

theorem gibGoF_le (lits : List (List Char)) :
    ∀ (fuel : Nat) (cs : List Char) (b : Bool), (gibGoF lits fuel cs b).length ≤ cs.length := by
  intro fuel
  induction fuel with
  | zero => intro cs b; simp [gibGoF]
  | succ f ih =>
    intro cs b
    cases cs with
    | nil => simp [gibGoF]
    | cons c rest =>
      simp only [gibGoF]
      split
      · simpa using Nat.succ_le_succ (ih rest (wordChar c))
      · cases htl : tryLits lits (c :: rest) with
        | some n =>
          calc (gibGoF lits f ((c :: rest).drop n) true).length
              ≤ ((c :: rest).drop n).length := ih _ _
            _ ≤ (c :: rest).length := by rw [List.length_drop]; omega
        | none => simpa using Nat.succ_le_succ (ih rest (wordChar c))

theorem gibDel_le (lits : List (List Char)) (cs : List Char) :
    (gibDel lits cs).length ≤ cs.length :=
  gibGoF_le lits cs.length cs false

theorem normalizeChars_le (cs : List Char) : (normalizeChars cs).length ≤ cs.length := by
  unfold normalizeChars
  calc (gibDel iagWords (gibDel gibWords (accentDel (((cs.filter
        (fun c => !koreanChar c)).filter (fun c => !chineseChar c)).filter
        (fun c => !japaneseChar c) |>.filter (fun c => !cyrillicChar c))))).length
      ≤ (gibDel gibWords (accentDel (((cs.filter (fun c => !koreanChar c)).filter
          (fun c => !chineseChar c)).filter (fun c => !japaneseChar c) |>.filter
          (fun c => !cyrillicChar c)))).length := gibDel_le _ _
    _ ≤ (accentDel (((cs.filter (fun c => !koreanChar c)).filter
          (fun c => !chineseChar c)).filter (fun c => !japaneseChar c) |>.filter
          (fun c => !cyrillicChar c))).length := gibDel_le _ _
    _ ≤ (((cs.filter (fun c => !koreanChar c)).filter (fun c => !chineseChar c)).filter
          (fun c => !japaneseChar c) |>.filter (fun c => !cyrillicChar c)).length := by
        simpa using accGo_le _ []
    _ ≤ cs.length := by
        calc _ ≤ (((cs.filter (fun c => !koreanChar c)).filter
              (fun c => !chineseChar c)).filter (fun c => !japaneseChar c)).length :=
              List.length_filter_le _ _
          _ ≤ ((cs.filter (fun c => !koreanChar c)).filter (fun c => !chineseChar c)).length :=
              List.length_filter_le _ _
          _ ≤ (cs.filter (fun c => !koreanChar c)).length := List.length_filter_le _ _
          _ ≤ cs.length := List.length_filter_le _ _

theorem assembleOut_sentences_le (cs : List Char) (si off e : Nat) :
    (assembleOut (sentencesOf cs) si off e).length ≤ cs.length := by
  have hne := segGo_ne_nil cs false []
  have h1 := assembleOut_le (sentencesOf cs) si off e hne
  have h2 := sentencesOf_len cs
  omega

theorem cleanChars_le (cs : List Char) : (cleanChars cs).length ≤ (normalizeChars cs).length := by
  unfold cleanChars
  exact assembleOut_sentences_le _ _ _ _

/-- C2: for every input string, the output of `clean_transcript` is never
longer than the normalized text (the input after all hallucination-pattern
deletions). -/
theorem c2_output_le_normalized (s : String) :
    (clean_transcript s).length ≤ (normalize_transcript s).length := by
  show (cleanChars s.data).length ≤ (normalizeChars s.data).length
  exact cleanChars_le s.data

/-- C3: the worked example of the specification, evaluated exactly: the
CJK run is removed, the start boundary trims the prefix of the first
sentence up to the match before `today`, and the trailing `Thank you.`
sentences are stripped. -/
theorem c3_worked_example : clean_transcript c3Input = c3Expected := by rfl

/-- C9 counterexample: cleaning is not idempotent; on this input the first
pass trims to a leading match of a lecture-start pattern, and the second
pass then finds a later positive-offset pattern match and shrinks the
output further. -/
theorem c9_counterexample :
    clean_transcript (clean_transcript c9Input) ≠ clean_transcript c9Input := by decide

/-- C9 amended: what does hold is monotonicity, not idempotence: re-running
the cleaner on its own output never lengthens it. -/
theorem c9_amended_second_pass_le (s : String) :
    (clean_transcript (clean_transcript s)).length ≤ (clean_transcript s).length := by
  have h1 := cleanChars_le (clean_transcript s).data
  have h2 := normalizeChars_le (clean_transcript s).data
  have h3 : ∀ t : String, (clean_transcript t).length = (cleanChars t.data).length :=
    fun t => rfl
  have h4 : ∀ t : String, t.length = t.data.length := fun t => rfl
  rw [h3 (clean_transcript s), h4 (clean_transcript s)]
  omega

theorem startGo_fst_le (all : List (List Char)) :
    ∀ (rest : List (List Char)) (i si : Nat), si ≤ i →
      (startGo all rest i si).1 ≤ i + rest.length := by
  intro rest
  induction rest with
  | nil => intro i si h; simpa [startGo] using h
  | cons s rest ih =>
    intro i si h
    have hrec1 := ih (i + 1) i (by omega)
    have hrec2 := ih (i + 1) si (by omega)
    cases hm : firstStartMatch (lowerL s) with
    | some o =>
      simp only [startGo, hm, List.length_cons]
      by_cases h1 : 0 < o
      · rw [if_pos h1]
        show i ≤ i + (rest.length + 1)
        omega
      · rw [if_neg h1]
        by_cases h2 : (isCoherentEnglish s && decide (50 < s.length)) = true
        · rw [if_pos h2]
          by_cases h3 : i + 2 < all.length
          · rw [if_pos h3]
            by_cases h4 : (isCoherentEnglish (all.getD (i + 1) []) ||
                isCoherentEnglish (all.getD (i + 2) [])) = true
            · rw [if_pos h4]
              show i ≤ i + (rest.length + 1)
              omega
            · rw [if_neg h4]
              omega
          · rw [if_neg h3]
            show i ≤ i + (rest.length + 1)
            omega
        · rw [if_neg h2]
          omega
    | none =>
      simp only [startGo, hm, List.length_cons]
      by_cases h2 : (isCoherentEnglish s && decide (50 < s.length)) = true
      · rw [if_pos h2]
        by_cases h3 : i + 2 < all.length
        · rw [if_pos h3]
          by_cases h4 : (isCoherentEnglish (all.getD (i + 1) []) ||
              isCoherentEnglish (all.getD (i + 2) [])) = true
          · rw [if_pos h4]
            show i ≤ i + (rest.length + 1)
            omega
          · rw [if_neg h4]
            omega
        · rw [if_neg h3]
          show i ≤ i + (rest.length + 1)
          omega
      · rw [if_neg h2]
        omega

theorem findStart_fst_le (sents : List (List Char)) : (findStart sents).1 ≤ sents.length := by
  have h := startGo_fst_le sents sents 0 0 (Nat.le_refl 0)
  simpa [findStart] using h

theorem chatGo_le (sents : List (List Char)) (lo : Nat) :
    ∀ (i : Nat) (cur : Option Nat) (c : Nat),
      chatGo sents lo i cur = some c → c ≤ i ∨ cur = some c := by
  intro i
  induction i with
  | zero =>
    intro cur c h
    right
    simpa [chatGo] using h
  | succ j ih =>
    intro cur c h
    simp only [chatGo] at h
    split at h
    · rcases ih _ c h with h1 | h1
      · left; omega
      · split at h1
        · left
          have : j + 1 = c := by simpa using h1
          omega
        · right; exact h1
    · right; exact h

theorem chatterIdx_le (sents : List (List Char)) :
    ∀ c, chatterIdx sents = some c → c ≤ sents.length - 1 := by
  intro c h
  rcases chatGo_le sents _ _ none c h with h1 | h1
  · exact h1
  · simp at h1

theorem endAfterA_le (sents : List (List Char)) : endAfterA sents ≤ sents.length := by
  cases hc : chatterIdx sents with
  | none => simp [endAfterA, hc]
  | some c =>
    have hle := chatterIdx_le sents c hc
    simp only [endAfterA, hc]
    split
    · exact Nat.le_refl _
    · omega

theorem phaseB_le (sents : List (List Char)) (si : Nat) :
    ∀ e, phaseB sents si e ≤ e := by
  intro e
  induction e with
  | zero => simp [phaseB]
  | succ e ih =>
    simp only [phaseB]
    split
    · split
      · exact Nat.le_trans ih (Nat.le_succ e)
      · exact Nat.le_refl _
    · exact Nat.le_refl _

theorem repGo_le (sents : List (List Char)) (lo e : Nat) :
    ∀ i, i < e → repGo sents lo e i ≤ e := by
  intro i
  induction i with
  | zero => intro h; simp [repGo]
  | succ j ih =>
    intro h
    simp only [repGo]
    split
    · split
      · omega
      · exact ih (by omega)
    · exact Nat.le_refl e

theorem endAfterRep_le (sents : List (List Char)) (si e : Nat) :
    endAfterRep sents si e ≤ e := by
  unfold endAfterRep
  split_ifs with h
  · exact repGo_le sents _ e (e - 1) (by omega)
  · exact Nat.le_refl e

/-- C4 counterexample: on this input the detected start index is 2, yet
the Phase A chatter scan (whose backward window is bounded only by the
last-30 cutoff, not by the start index) records the chatter sentence at
index 1, so after Phase A `end_index < start_index`. -/
theorem c4_counterexample :
    (findStart (sentencesOf (normalizeChars c4Input.data))).1 = 2 ∧
    endAfterA (sentencesOf (normalizeChars c4Input.data)) = 1 ∧
    ¬ ((findStart (sentencesOf (normalizeChars c4Input.data))).1 ≤
        endAfterA (sentencesOf (normalizeChars c4Input.data))) := by decide

/-- C4 amended: the invariants that do hold throughout an invocation:
`start_index` and the Phase A end index are at most the number of
sentences, and Phases B and the repetition collapse only decrease the end
index (`start_index ≤ end_index` can fail after Phase A, in which case the
kept slice downstream is empty). -/
theorem c4_amended_range_bounds (cs : List Char) :
    (findStart (sentencesOf (normalizeChars cs))).1 ≤
      (sentencesOf (normalizeChars cs)).length ∧
    endAfterA (sentencesOf (normalizeChars cs)) ≤ (sentencesOf (normalizeChars cs)).length ∧
    phaseB (sentencesOf (normalizeChars cs)) (findStart (sentencesOf (normalizeChars cs))).1
        (endAfterA (sentencesOf (normalizeChars cs))) ≤
      endAfterA (sentencesOf (normalizeChars cs)) ∧
    endAfterRep (sentencesOf (normalizeChars cs)) (findStart (sentencesOf (normalizeChars cs))).1
        (phaseB (sentencesOf (normalizeChars cs)) (findStart (sentencesOf (normalizeChars cs))).1
          (endAfterA (sentencesOf (normalizeChars cs)))) ≤
      phaseB (sentencesOf (normalizeChars cs)) (findStart (sentencesOf (normalizeChars cs))).1
        (endAfterA (sentencesOf (normalizeChars cs))) :=
  ⟨findStart_fst_le _, endAfterA_le _, phaseB_le _ _ _, endAfterRep_le _ _ _⟩

theorem chatGo_spec (sents : List (List Char)) (lo : Nat) :
    ∀ (i : Nat) (cur : Option Nat),
      (∃ c, chatGo sents lo i cur = some c ∧ lo < c ∧ c ≤ i ∧
          chatterHit (stripLower (sents.getD c [])) = true ∧
          (∀ j, lo < j → j ≤ i → chatterHit (stripLower (sents.getD j [])) = true → c ≤ j)) ∨
      (chatGo sents lo i cur = cur ∧
        ∀ j, lo < j → j ≤ i → chatterHit (stripLower (sents.getD j [])) = false) := by
  intro i
  induction i with
  | zero =>
    intro cur
    right
    refine ⟨by simp [chatGo], ?_⟩
    intro j hj1 hj2
    exact absurd hj1 (by omega)
  | succ k ih =>
    intro cur
    by_cases hlo : lo < k + 1
    · have hunfold : chatGo sents lo (k + 1) cur =
          chatGo sents lo k
            (if chatterHit (stripLower (sents.getD (k + 1) [])) then some (k + 1) else cur) := by
        simp only [chatGo, if_pos hlo]
      by_cases hhit : chatterHit (stripLower (sents.getD (k + 1) [])) = true
      · rw [if_pos hhit] at hunfold
        rcases ih (some (k + 1)) with ⟨c, hc, h1, h2, h3, h4⟩ | ⟨heq, hnone⟩
        · left
          refine ⟨c, by rw [hunfold]; exact hc, h1, by omega, h3, ?_⟩
          intro j hj1 hj2 hj3
          rcases Nat.lt_or_ge j (k + 1) with hj | hj
          · exact h4 j hj1 (by omega) hj3
          · omega
        · left
          refine ⟨k + 1, by rw [hunfold, heq], hlo, Nat.le_refl _, hhit, ?_⟩
          intro j hj1 hj2 hj3
          rcases Nat.lt_or_ge j (k + 1) with hj | hj
          · have hf := hnone j hj1 (by omega)
            rw [hf] at hj3
            simp at hj3
          · omega
      · have hhit' : chatterHit (stripLower (sents.getD (k + 1) [])) = false := by
          simpa using hhit
        rw [if_neg hhit] at hunfold
        rcases ih cur with ⟨c, hc, h1, h2, h3, h4⟩ | ⟨heq, hnone⟩
        · left
          refine ⟨c, by rw [hunfold]; exact hc, h1, by omega, h3, ?_⟩
          intro j hj1 hj2 hj3
          rcases Nat.lt_or_ge j (k + 1) with hj | hj
          · exact h4 j hj1 (by omega) hj3
          · have hje : j = k + 1 := by omega
            rw [hje] at hj3
            rw [hhit'] at hj3
            simp at hj3
        · right
          refine ⟨by rw [hunfold, heq], ?_⟩
          intro j hj1 hj2
          rcases Nat.lt_or_ge j (k + 1) with hj | hj
          · exact hnone j hj1 (by omega)
          · have hje : j = k + 1 := by omega
            rw [hje]
            exact hhit'
    · right
      refine ⟨by simp [chatGo, hlo], ?_⟩
      intro j hj1 hj2
      exact absurd hj1 (by omega)

/-- C7: Phase A keeps the earliest chatter hit: the recorded
`chatter_start_index` is exactly the smallest index in the scanned window
(the last at-most-29 sentences, indices above `len - 30`) whose stripped
lowercased text matches a chatter pattern; scanning continues after a hit
and later (smaller-index) hits overwrite earlier ones. -/
theorem c7_chatter_earliest_hit (sents : List (List Char)) (c : Nat) :
    chatterIdx sents = some c ↔
      (sents.length - 30 < c ∧ c ≤ sents.length - 1 ∧
        chatterHit (stripLower (sents.getD c [])) = true ∧
        ∀ j, sents.length - 30 < j → j ≤ sents.length - 1 →
          chatterHit (stripLower (sents.getD j [])) = true → c ≤ j) := by
  constructor
  · intro h
    rcases chatGo_spec sents (sents.length - 30) (sents.length - 1) none with
      ⟨c', hc', h1, h2, h3, h4⟩ | ⟨heq, hnone⟩
    · have hcc : some c' = some c := by
        rw [← hc']
        exact h
      have hcc' : c' = c := Option.some.inj hcc
      rw [hcc'] at h1 h2 h3 h4
      exact ⟨h1, h2, h3, h4⟩
    · rw [chatterIdx] at h
      rw [heq] at h
      cases h
  · rintro ⟨h1, h2, h3, h4⟩
    rcases chatGo_spec sents (sents.length - 30) (sents.length - 1) none with
      ⟨c', hc', g1, g2, g3, g4⟩ | ⟨heq, hnone⟩
    · have hcc : c' = c := Nat.le_antisymm (g4 c h1 h2 h3) (h4 c' g1 g2 g3)
      rw [chatterIdx, hc', hcc]
    · have hf := hnone c h1 h2
      rw [hf] at h3
      simp at h3

theorem get?_lt_length {α : Type} (l : List α) (i : Nat) (a : α) (h : l.get? i = some a) :
    i < l.length := by
  by_contra hc
  rw [List.get?_eq_none.mpr (by omega)] at h
  cases h

theorem getD_of_get? {α : Type} (l : List α) (i : Nat) (a d : α) (h : l.get? i = some a) :
    l.getD i d = a := by
  rw [List.getD_eq_getElem?_getD l i d, ← List.get?_eq_getElem? l i, h]
  rfl

theorem drop_cons_parts {α : Type} (l : List α) (k : Nat) (a : α) (t : List α)
    (h : l.drop k = a :: t) : l.get? k = some a ∧ l.drop (k + 1) = t := by
  constructor
  · have h0 : (l.drop k).get? 0 = some a := by rw [h]; rfl
    rw [List.get?_eq_getElem? _ 0, List.getElem?_drop] at h0
    rw [List.get?_eq_getElem? l k]
    simpa using h0
  · have : l.drop (k + 1) = (l.drop k).drop 1 := by
      rw [List.drop_drop]
    rw [this, h]
    rfl

theorem startGo_reach_pos (all : List (List Char)) :
    ∀ (rest : List (List Char)) (k si i : Nat) (s : List Char) (o : Nat),
      rest = all.drop k → k ≤ i →
      (∀ j, k ≤ j → j < i → stopB all j (all.getD j []) = false) →
      all.get? i = some s →
      firstStartMatch (lowerL s) = some o → 0 < o →
      startGo all rest k si = (i, o) := by
  intro rest
  induction rest with
  | nil =>
    intro k si i s o hdrop hki hstop hget hm ho
    exfalso
    have hlen : all.length ≤ k := List.drop_eq_nil_iff.mp hdrop.symm
    have hi : i < all.length := get?_lt_length all i s hget
    omega
  | cons s0 rest' ih =>
    intro k si i s o hdrop hki hstop hget hm ho
    have hd := drop_cons_parts all k s0 rest' hdrop.symm
    rcases Nat.eq_or_lt_of_le hki with heq | hlt
    · have hs : s0 = s := by
        rw [← heq] at hget
        rw [hd.1] at hget
        exact Option.some.inj hget
      rw [hs]
      simp only [startGo, hm, if_pos ho]
      rw [heq]
    · have hgetD : all.getD k [] = s0 := getD_of_get? all k s0 [] hd.1
      have hstopk := hstop k (Nat.le_refl k) hlt
      rw [hgetD] at hstopk
      have hparts : posOff (firstStartMatch (lowerL s0)) = false ∧ fbBreakB all k s0 = false := by
        rw [stopB] at hstopk
        exact Bool.or_eq_false_iff.mp hstopk
      have hnext : ∀ j, k + 1 ≤ j → j < i → stopB all j (all.getD j []) = false :=
        fun j hj1 hj2 => hstop j (by omega) hj2
      cases hm0 : firstStartMatch (lowerL s0) with
      | some o0 =>
        have ho0 : ¬ 0 < o0 := by
          have := hparts.1
          rw [hm0] at this
          simpa [posOff] using this
        simp only [startGo, hm0, if_neg ho0]
        by_cases hc : (isCoherentEnglish s0 && decide (50 < s0.length)) = true
        · rw [if_pos hc]
          by_cases hk2 : k + 2 < all.length
          · rw [if_pos hk2]
            have hcc : (isCoherentEnglish (all.getD (k + 1) []) ||
                isCoherentEnglish (all.getD (k + 2) [])) = false := by
              have hfb := hparts.2
              rw [fbBreakB, hc, if_pos hk2] at hfb
              simpa using hfb
            rw [hcc]
            simp only [Bool.false_eq_true, if_false]
            exact ih (k + 1) k i s o hd.2.symm (by omega) hnext hget hm ho
          · exfalso
            have hfb := hparts.2
            rw [fbBreakB, hc, if_neg hk2] at hfb
            simp at hfb
        · rw [if_neg hc]
          exact ih (k + 1) k i s o hd.2.symm (by omega) hnext hget hm ho
      | none =>
        simp only [startGo, hm0]
        by_cases hc : (isCoherentEnglish s0 && decide (50 < s0.length)) = true
        · rw [if_pos hc]
          by_cases hk2 : k + 2 < all.length
          · rw [if_pos hk2]
            have hcc : (isCoherentEnglish (all.getD (k + 1) []) ||
                isCoherentEnglish (all.getD (k + 2) [])) = false := by
              have hfb := hparts.2
              rw [fbBreakB, hc, if_pos hk2] at hfb
              simpa using hfb
            rw [hcc]
            simp only [Bool.false_eq_true, if_false]
            exact ih (k + 1) si i s o hd.2.symm (by omega) hnext hget hm ho
          · exfalso
            have hfb := hparts.2
            rw [fbBreakB, hc, if_neg hk2] at hfb
            simp at hfb
        · rw [if_neg hc]
          exact ih (k + 1) si i s o hd.2.symm (by omega) hnext hget hm ho

theorem startGo_reach_fb (all : List (List Char)) :
    ∀ (rest : List (List Char)) (k si i : Nat) (s : List Char),
      rest = all.drop k → k ≤ i →
      (∀ j, k ≤ j → j < i → stopB all j (all.getD j []) = false) →
      all.get? i = some s →
      posOff (firstStartMatch (lowerL s)) = false →
      fbBreakB all i s = true →
      startGo all rest k si = (i, 0) := by
  intro rest
  induction rest with
  | nil =>
    intro k si i s hdrop hki hstop hget hpos hfb
    exfalso
    have hlen : all.length ≤ k := List.drop_eq_nil_iff.mp hdrop.symm
    have hi : i < all.length := get?_lt_length all i s hget
    omega
  | cons s0 rest' ih =>
    intro k si i s hdrop hki hstop hget hpos hfb
    have hd := drop_cons_parts all k s0 rest' hdrop.symm
    rcases Nat.eq_or_lt_of_le hki with heq | hlt
    · have hs : s0 = s := by
        rw [← heq] at hget
        rw [hd.1] at hget
        exact Option.some.inj hget
      subst hs
      rw [← heq] at hfb
      have hc : (isCoherentEnglish s0 && decide (50 < s0.length)) = true := by
        rw [fbBreakB] at hfb
        exact (Bool.and_eq_true_iff.mp hfb).1
      cases hm0 : firstStartMatch (lowerL s0) with
      | some o0 =>
        have ho0 : ¬ 0 < o0 := by
          rw [hm0] at hpos
          simpa [posOff] using hpos
        simp only [startGo, hm0, if_neg ho0, if_pos hc]
        by_cases hk2 : k + 2 < all.length
        · rw [if_pos hk2]
          have hcc : (isCoherentEnglish (all.getD (k + 1) []) ||
              isCoherentEnglish (all.getD (k + 2) [])) = true := by
            have := hfb
            rw [fbBreakB, hc, if_pos hk2] at this
            simpa using this
          rw [hcc]
          simp only [if_true]
          rw [heq]
        · rw [if_neg hk2]
          rw [heq]
      | none =>
        simp only [startGo, hm0, if_pos hc]
        by_cases hk2 : k + 2 < all.length
        · rw [if_pos hk2]
          have hcc : (isCoherentEnglish (all.getD (k + 1) []) ||
              isCoherentEnglish (all.getD (k + 2) [])) = true := by
            have := hfb
            rw [fbBreakB, hc, if_pos hk2] at this
            simpa using this
          rw [hcc]
          simp only [if_true]
          rw [heq]
        · rw [if_neg hk2]
          rw [heq]
    · have hgetD : all.getD k [] = s0 := getD_of_get? all k s0 [] hd.1
      have hstopk := hstop k (Nat.le_refl k) hlt
      rw [hgetD] at hstopk
      have hparts : posOff (firstStartMatch (lowerL s0)) = false ∧ fbBreakB all k s0 = false := by
        rw [stopB] at hstopk
        exact Bool.or_eq_false_iff.mp hstopk
      have hnext : ∀ j, k + 1 ≤ j → j < i → stopB all j (all.getD j []) = false :=
        fun j hj1 hj2 => hstop j (by omega) hj2
      cases hm0 : firstStartMatch (lowerL s0) with
      | some o0 =>
        have ho0 : ¬ 0 < o0 := by
          have := hparts.1
          rw [hm0] at this
          simpa [posOff] using this
        simp only [startGo, hm0, if_neg ho0]
        by_cases hc : (isCoherentEnglish s0 && decide (50 < s0.length)) = true
        · rw [if_pos hc]
          by_cases hk2 : k + 2 < all.length
          · rw [if_pos hk2]
            have hcc : (isCoherentEnglish (all.getD (k + 1) []) ||
                isCoherentEnglish (all.getD (k + 2) [])) = false := by
              have hfb0 := hparts.2
              rw [fbBreakB, hc, if_pos hk2] at hfb0
              simpa using hfb0
            rw [hcc]
            simp only [Bool.false_eq_true, if_false]
            exact ih (k + 1) k i s hd.2.symm (by omega) hnext hget hpos hfb
          · exfalso
            have hfb0 := hparts.2
            rw [fbBreakB, hc, if_neg hk2] at hfb0
            simp at hfb0
        · rw [if_neg hc]
          exact ih (k + 1) k i s hd.2.symm (by omega) hnext hget hpos hfb
      | none =>
        simp only [startGo, hm0]
        by_cases hc : (isCoherentEnglish s0 && decide (50 < s0.length)) = true
        · rw [if_pos hc]
          by_cases hk2 : k + 2 < all.length
          · rw [if_pos hk2]
            have hcc : (isCoherentEnglish (all.getD (k + 1) []) ||
                isCoherentEnglish (all.getD (k + 2) [])) = false := by
              have hfb0 := hparts.2
              rw [fbBreakB, hc, if_pos hk2] at hfb0
              simpa using hfb0
            rw [hcc]
            simp only [Bool.false_eq_true, if_false]
            exact ih (k + 1) si i s hd.2.symm (by omega) hnext hget hpos hfb
          · exfalso
            have hfb0 := hparts.2
            rw [fbBreakB, hc, if_neg hk2] at hfb0
            simp at hfb0
        · rw [if_neg hc]
          exact ih (k + 1) si i s hd.2.symm (by omega) hnext hget hpos hfb

/-- C5 counterexample: the first sentence of this input matches a
lecture-start pattern at character position 0, yet the scan does not stop
there (the loop only breaks when the recorded offset is positive), and a
later sentence overwrites both the index and the offset. -/
theorem c5_counterexample :
    firstStartMatch (lowerL ((sentencesOf (normalizeChars c5Input.data)).getD 0 [])) = some 0 ∧
    findStart (sentencesOf (normalizeChars c5Input.data)) = (1, 4) ∧
    findStart (sentencesOf (normalizeChars c5Input.data)) ≠ (0, 0) := by decide

/-- C5 amended: first match wins and stops the scan only when the match
starts at a positive character position: if sentence `i` is the first
sentence at which the scan stops (a positive-offset pattern match, with no
earlier positive-offset match and no earlier coherence-fallback break),
then the detector returns exactly that sentence index and match offset.  A
match at position 0 records the index but scanning continues. -/
theorem c5_amended_first_positive_match_wins (sents : List (List Char)) (i : Nat)
    (s : List Char) (o : Nat)
    (hget : sents.get? i = some s)
    (hm : firstStartMatch (lowerL s) = some o) (ho : 0 < o)
    (hstop : ∀ j, j < i → stopB sents j (sents.getD j []) = false) :
    findStart sents = (i, o) := by
  unfold findStart
  exact startGo_reach_pos sents sents 0 0 i s o (by simp) (Nat.zero_le i)
    (fun j _ hj => hstop j hj) hget hm ho

/-- Witness for the amended C5 rule at a concrete input. -/
theorem c5_amended_witness :
    findStart (sentencesOf c5Witness.data) = (1, 4) := by
  refine c5_amended_first_positive_match_wins (sentencesOf c5Witness.data) 1
    ("Blah today we talk.".data) 4 (by decide) (by decide) (by decide) ?_
  intro j hj
  have hj0 : j = 0 := by omega
  subst hj0
  decide

/-- C6 counterexample: a sentence of this input (index 2) matches a
lecture-start pattern, but the coherence fallback at sentence 0 decides
the start first: the fallback is not gated on the absence of pattern
matches over the whole sequence. -/
theorem c6_counterexample :
    findStart (sentencesOf (normalizeChars c6Input.data)) = (0, 0) ∧
    firstStartMatch (lowerL ((sentencesOf (normalizeChars c6Input.data)).getD 0 [])) = none ∧
    firstStartMatch (lowerL ((sentencesOf (normalizeChars c6Input.data)).getD 1 [])) = none ∧
    firstStartMatch (lowerL ((sentencesOf (normalizeChars c6Input.data)).getD 2 [])) = some 4 := by
  decide

/-- C6 amended: the coherence fallback fires at the first sentence at
which the scan stops, and it decides the start whenever it fires before
any positive-offset pattern match — even if later sentences match
patterns.  If sentence `i` has no positive-offset match, satisfies the
fallback break, and no earlier sentence stops the scan, the detector
returns `(i, 0)`. -/
theorem c6_amended_fallback_preempts (sents : List (List Char)) (i : Nat) (s : List Char)
    (hget : sents.get? i = some s)
    (hpos : posOff (firstStartMatch (lowerL s)) = false)
    (hfb : fbBreakB sents i s = true)
    (hstop : ∀ j, j < i → stopB sents j (sents.getD j []) = false) :
    findStart sents = (i, 0) := by
  unfold findStart
  exact startGo_reach_fb sents sents 0 0 i s (by simp) (Nat.zero_le i)
    (fun j _ hj => hstop j hj) hget hpos hfb

/-- Witness for the amended C6 rule at a concrete input. -/
theorem c6_amended_witness :
    findStart (sentencesOf (normalizeChars c6Input.data)) = (0, 0) := by
  refine c6_amended_fallback_preempts (sentencesOf (normalizeChars c6Input.data)) 0
    ((sentencesOf (normalizeChars c6Input.data)).getD 0 []) (by decide) (by decide)
    (by decide) ?_
  intro j hj
  exact absurd hj (by omega)

theorem exbind_ok {α β : Type} (a : α) (f : α → Except String β) :
    (Except.ok a >>= f) = f a := rfl

theorem getE_ok {α : Type} (l : List α) (i : Nat) (d : α) (h : i < l.length) :
    getE l i = .ok (l.getD i d) := by
  unfold getE
  cases hg : l.get? i with
  | none =>
    exfalso
    rw [List.get?_eq_none] at hg
    omega
  | some a => rw [getD_of_get? l i a d hg]

theorem isCoherentEnglishE_ok (s : List Char) :
    isCoherentEnglishE s = .ok (isCoherentEnglish s) := by
  simp only [isCoherentEnglishE, isCoherentEnglish, ratioGE25E]
  split_ifs with h1 h2 h3 h4 <;> simp_all

theorem startGoE_ok (all : List (List Char)) :
    ∀ (rest : List (List Char)) (i si : Nat),
      startGoE all rest i si = .ok (startGo all rest i si) := by
  intro rest
  induction rest with
  | nil => intro i si; rfl
  | cons s rest' ih =>
    intro i si
    cases hm : firstStartMatch (lowerL s) with
    | some o =>
      simp only [startGoE, startGo, hm]
      by_cases h1 : 0 < o
      · rw [if_pos h1, if_pos h1]
      · rw [if_neg h1, if_neg h1]
        rw [isCoherentEnglishE_ok s, exbind_ok]
        by_cases hc : (isCoherentEnglish s && decide (50 < s.length)) = true
        · rw [if_pos hc, if_pos hc]
          by_cases hk2 : i + 2 < all.length
          · rw [if_pos hk2, if_pos hk2]
            rw [getE_ok all (i + 1) [] (by omega), exbind_ok]
            rw [getE_ok all (i + 2) [] (by omega), exbind_ok]
            rw [isCoherentEnglishE_ok, exbind_ok, isCoherentEnglishE_ok, exbind_ok]
            by_cases hcc : (isCoherentEnglish (all.getD (i + 1) []) ||
                isCoherentEnglish (all.getD (i + 2) [])) = true
            · rw [if_pos hcc, if_pos hcc]
            · rw [if_neg hcc, if_neg hcc]
              exact ih (i + 1) i
          · rw [if_neg hk2, if_neg hk2]
        · rw [if_neg hc, if_neg hc]
          exact ih (i + 1) i
    | none =>
      simp only [startGoE, startGo, hm]
      rw [isCoherentEnglishE_ok s, exbind_ok]
      by_cases hc : (isCoherentEnglish s && decide (50 < s.length)) = true
      · rw [if_pos hc, if_pos hc]
        by_cases hk2 : i + 2 < all.length
        · rw [if_pos hk2, if_pos hk2]
          rw [getE_ok all (i + 1) [] (by omega), exbind_ok]
          rw [getE_ok all (i + 2) [] (by omega), exbind_ok]
          rw [isCoherentEnglishE_ok, exbind_ok, isCoherentEnglishE_ok, exbind_ok]
          by_cases hcc : (isCoherentEnglish (all.getD (i + 1) []) ||
              isCoherentEnglish (all.getD (i + 2) [])) = true
          · rw [if_pos hcc, if_pos hcc]
          · rw [if_neg hcc, if_neg hcc]
            exact ih (i + 1) si
        · rw [if_neg hk2, if_neg hk2]
      · rw [if_neg hc, if_neg hc]
        exact ih (i + 1) si

theorem chatGoE_ok (sents : List (List Char)) (lo : Nat) :
    ∀ (i : Nat) (cur : Option Nat), (lo < i → i < sents.length) →
      chatGoE sents lo i cur = .ok (chatGo sents lo i cur) := by
  intro i
  induction i with
  | zero => intro cur h; rfl
  | succ j ih =>
    intro cur h
    by_cases hlo : lo < j + 1
    · have hj : j + 1 < sents.length := h hlo
      simp only [chatGoE, chatGo, if_pos hlo]
      rw [getE_ok sents (j + 1) [] hj, exbind_ok]
      exact ih _ (fun h2 => by omega)
    · simp only [chatGoE, chatGo, if_neg hlo]

theorem phaseBE_ok (sents : List (List Char)) (si : Nat) :
    ∀ e, e ≤ sents.length → phaseBE sents si e = .ok (phaseB sents si e) := by
  intro e
  induction e with
  | zero => intro h; rfl
  | succ e ih =>
    intro h
    by_cases hs : si < e + 1
    · simp only [phaseBE, phaseB, if_pos hs]
      rw [getE_ok sents e [] (by omega), exbind_ok]
      by_cases hd : phaseBDrop (stripLower (sents.getD e [])) = true
      · rw [if_pos hd, if_pos hd]
        exact ih (by omega)
      · rw [if_neg hd, if_neg hd]
    · simp only [phaseBE, phaseB, if_neg hs]

theorem mostCommonCountE_ok (l : List (List Char)) (h : l ≠ []) :
    mostCommonCountE l = .ok (maxCount l) := by
  unfold mostCommonCountE
  cases l with
  | nil => exact absurd rfl h
  | cons x t => rfl

theorem repTriggerE_ok (sents : List (List Char)) (e i : Nat) :
    repTriggerE sents e i = .ok (repTrigger sents e i) := by
  simp only [repTriggerE, repTrigger]
  by_cases h3 : 3 ≤ (((sents.drop i).take (e - i)).map stripLower).length
  · rw [if_pos h3]
    have hne : ((sents.drop i).take (e - i)).map stripLower ≠ [] := by
      intro hnil
      rw [hnil] at h3
      simp at h3
    rw [mostCommonCountE_ok _ hne, exbind_ok]
    rw [decide_eq_true h3, Bool.true_and]
  · rw [if_neg h3]
    rw [decide_eq_false h3, Bool.false_and]

theorem repGoE_ok (sents : List (List Char)) (lo e : Nat) :
    ∀ i, repGoE sents lo e i = .ok (repGo sents lo e i) := by
  intro i
  induction i with
  | zero => rfl
  | succ j ih =>
    by_cases hlo : lo < j + 1
    · simp only [repGoE, repGo, if_pos hlo]
      rw [repTriggerE_ok, exbind_ok]
      by_cases ht : repTrigger sents e (j + 1) = true
      · rw [if_pos ht, if_pos ht]
      · rw [if_neg ht, if_neg ht]
        exact ih
    · simp only [repGoE, repGo, if_neg hlo]

theorem assembleOutE_ok (sents : List (List Char)) (si off e : Nat) :
    assembleOutE sents si off e = .ok (assembleOut sents si off e) := by
  simp only [assembleOutE, assembleOut]
  split
  · rfl
  · by_cases hoff : 0 < off
    · rw [if_pos hoff, if_pos hoff]
      rfl
    · rw [if_neg hoff, if_neg hoff]
      rfl

theorem expure_bind {α β : Type} (a : α) (f : α → Except String β) :
    ((pure a : Except String α) >>= f) = f a := rfl

theorem cleanCharsE_ok (cs : List Char) : cleanCharsE cs = .ok (cleanChars cs) := by
  have heA := endAfterA_le (sentencesOf (normalizeChars cs))
  simp only [endAfterA, chatterIdx] at heA
  simp only [cleanCharsE, cleanChars, findStart, endAfterA, chatterIdx, endAfterRep]
  rw [startGoE_ok, exbind_ok]
  rw [chatGoE_ok _ _ _ none (by intro h; omega), exbind_ok]
  rw [phaseBE_ok _ _ _ heA, exbind_ok]
  split_ifs with hrep
  · rw [repGoE_ok, exbind_ok]
    exact assembleOutE_ok _ _ _ _
  · rw [expure_bind]
    exact assembleOutE_ok _ _ _ _

/-- C1: totality of the cleaning engine: for every input string the
checked engine — in which every Python list indexing, `most_common`
access, and division is modelled as an operation that fails when its
guard would be violated — returns `ok` with exactly the value of the
total engine; no access is ever out of range. -/
theorem c1_total_no_failure (s : String) :
    clean_transcriptE s = .ok (clean_transcript s) := by
  unfold clean_transcriptE clean_transcript
  rw [cleanCharsE_ok]
  rfl

theorem runsGo_words (rest : List Char) :
    ∀ (w acc : List Char), (∀ c ∈ w, wordChar c = true) →
      runsGo (w ++ rest) acc = runsGo rest (w.reverse ++ acc) := by
  intro w
  induction w with
  | nil => intro acc h; simp
  | cons c w' ih =>
    intro acc h
    have hc : wordChar c = true := h c (by simp)
    simp only [List.cons_append, runsGo, hc, if_true, List.append_eq]
    rw [ih (c :: acc) (fun x hx => h x (by simp [hx]))]
    have hre : (c :: w').reverse ++ acc = w'.reverse ++ (c :: acc) := by
      simp [List.reverse_cons, List.append_assoc]
    rw [hre]

theorem runsGo_nonword_flush (X : List Char) (c : Char) (acc : List Char)
    (hc : wordChar c = false) (hacc : acc.isEmpty = false) :
    runsGo (c :: X) acc = acc.reverse :: runsGo X [] := by
  simp [runsGo, hc, hacc]

theorem runsGo_nonword_skip (X : List Char) (c : Char) (hc : wordChar c = false) :
    runsGo (c :: X) [] = runsGo X [] := by
  simp [runsGo, hc]

theorem accGo_no_accent_runs :
    ∀ (cs acc : List Char), (∀ c ∈ acc, wordChar c = true) →
      ∀ r ∈ wordRuns (accGo cs acc), isAccentWord r = false := by
  intro cs
  induction cs with
  | nil =>
    intro acc hacc r hr
    by_cases hfa : isAccentWord acc.reverse = true
    · have hfl : accGo [] acc = [] := by simp [accGo, flushAcc, hfa]
      rw [hfl] at hr
      simp [wordRuns, runsGo] at hr
    · have hfl : accGo [] acc = acc.reverse := by simp [accGo, flushAcc, hfa]
      rw [hfl] at hr
      cases hacc0 : acc with
      | nil =>
        rw [hacc0] at hr
        simp [wordRuns, runsGo] at hr
      | cons a t =>
        have hwordall : ∀ x ∈ acc.reverse, wordChar x = true :=
          fun x hx => hacc x (List.mem_reverse.mp hx)
        have hruns : wordRuns acc.reverse = [acc.reverse] := by
          unfold wordRuns
          have h0 : acc.reverse ++ ([] : List Char) = acc.reverse := List.append_nil _
          rw [← h0, runsGo_words [] acc.reverse [] hwordall]
          simp only [List.reverse_reverse, List.append_nil]
          simp [runsGo, hacc0]
        rw [hruns] at hr
        have : r = acc.reverse := by simpa using hr
        rw [this]
        simpa using hfa
  | cons c rest ih =>
    intro acc hacc r hr
    by_cases hw : wordChar c = true
    · have hfl : accGo (c :: rest) acc = accGo rest (c :: acc) := by
        simp [accGo, hw]
      rw [hfl] at hr
      refine ih (c :: acc) ?_ r hr
      intro x hx
      rcases List.mem_cons.mp hx with h | h
      · rw [h]; exact hw
      · exact hacc x h
    · have hw' : wordChar c = false := by simpa using hw
      have hfl : accGo (c :: rest) acc = flushAcc acc ++ c :: accGo rest [] := by
        simp [accGo, hw']
      rw [hfl] at hr
      by_cases hfa : isAccentWord acc.reverse = true
      · have hfl2 : flushAcc acc = [] := by simp [flushAcc, hfa]
        rw [hfl2, List.nil_append] at hr
        have hskip : wordRuns (c :: accGo rest []) = wordRuns (accGo rest []) :=
          runsGo_nonword_skip _ c hw'
        rw [hskip] at hr
        exact ih [] (by simp) r hr
      · have hfl2 : flushAcc acc = acc.reverse := by simp [flushAcc, hfa]
        rw [hfl2] at hr
        cases hacc0 : acc with
        | nil =>
          rw [hacc0] at hr
          simp only [List.reverse_nil, List.nil_append] at hr
          have hskip : wordRuns (c :: accGo rest []) = wordRuns (accGo rest []) :=
            runsGo_nonword_skip _ c hw'
          rw [hskip] at hr
          exact ih [] (by simp) r hr
        | cons a t =>
          have hwordall : ∀ x ∈ acc.reverse, wordChar x = true :=
            fun x hx => hacc x (List.mem_reverse.mp hx)
          have hne : acc.isEmpty = false := by rw [hacc0]; rfl
          have hrw : wordRuns (acc.reverse ++ c :: accGo rest []) =
              acc.reverse :: wordRuns (accGo rest []) := by
            unfold wordRuns
            rw [runsGo_words (c :: accGo rest []) acc.reverse [] hwordall]
            simp only [List.reverse_reverse, List.append_nil]
            exact runsGo_nonword_flush _ c acc hw' hne
          rw [hrw] at hr
          rcases List.mem_cons.mp hr with h | h
          · rw [h]
            simpa using hfa
          · exact ih [] (by simp) r h

/-- C10 amended: the accented-word pass deletes exactly the maximal word
runs made of ASCII letters around exactly one accented character; after
the pass no word run of that shape remains — but a word with two or more
accented characters does not have the shape, is not deleted, and can reach
the output. -/
theorem c10_amended_no_single_accent_word_survives (cs : List Char) :
    (wordRuns (accentDel cs)).all (fun r => !isAccentWord r) = true := by
  rw [List.all_eq_true]
  intro r hr
  have h := accGo_no_accent_runs cs [] (by simp) r hr
  simp [h]

/-- C10 counterexample: the word with two accented characters in this
input is not matched by the accented-word pattern, survives normalization
and cleaning unchanged, and its accented characters reach the output —
refuting the claim that every word containing an accented character is
deleted. -/
theorem c10_counterexample :
    clean_transcript c10Input = c10Input ∧ accentChar 'é' = true ∧ 'é' ∈ c10Input.data := by
  decide

theorem pfxOf_iff : ∀ (p l : List Char), pfxOf p l = true ↔ ∃ t, l = p ++ t := by
  intro p
  induction p with
  | nil =>
    intro l
    simp [pfxOf]
  | cons a as ih =>
    intro l
    cases l with
    | nil =>
      simp [pfxOf]
    | cons b bs =>
      simp only [pfxOf, Bool.and_eq_true, beq_iff_eq]
      constructor
      · rintro ⟨rfl, h⟩
        rcases (ih bs).mp h with ⟨t, rfl⟩
        exact ⟨t, rfl⟩
      · rintro ⟨t, ht⟩
        injection ht with h1 h2
        exact ⟨h1.symm, (ih bs).mpr ⟨t, h2⟩⟩

theorem infOf_iff : ∀ (l p : List Char), infOf p l = true ↔ ∃ u v, l = u ++ p ++ v := by
  intro l
  induction l with
  | nil =>
    intro p
    constructor
    · intro h
      have hp : p = [] := by
        cases p with
        | nil => rfl
        | cons x xs => simp [infOf] at h
      exact ⟨[], [], by simp [hp]⟩
    · rintro ⟨u, v, huv⟩
      have hlen := congrArg List.length huv
      simp only [List.length_nil, List.length_append] at hlen
      have hp : p = [] := List.length_eq_zero.mp (by omega)
      simp [infOf, hp]
  | cons c rest ih =>
    intro p
    simp only [infOf, Bool.or_eq_true]
    constructor
    · rintro (h | h)
      · rcases (pfxOf_iff p (c :: rest)).mp h with ⟨t, ht⟩
        exact ⟨[], t, by simp [ht]⟩
      · rcases (ih p).mp h with ⟨u, v, huv⟩
        exact ⟨c :: u, v, by simp [huv]⟩
    · rintro ⟨u, v, huv⟩
      cases u with
      | nil =>
        left
        exact (pfxOf_iff p (c :: rest)).mpr ⟨v, by simpa using huv⟩
      | cons x u' =>
        right
        refine (ih p).mpr ⟨u', v, ?_⟩
        simp only [List.cons_append, List.cons.injEq] at huv
        exact huv.2

theorem infOf_drop {s cs : List Char} (n : Nat) (h : infOf s (cs.drop n) = true) :
    infOf s cs = true := by
  rcases (infOf_iff _ s).mp h with ⟨u, v, huv⟩
  refine (infOf_iff cs s).mpr ⟨cs.take n ++ u, v, ?_⟩
  conv_lhs => rw [← List.take_append_drop n cs]
  rw [huv]
  simp [List.append_assoc]

theorem infOf_of_append_right {a b l : List Char} (h : infOf (a ++ b) l = true) :
    infOf b l = true := by
  rcases (infOf_iff l (a ++ b)).mp h with ⟨u, v, huv⟩
  refine (infOf_iff l b).mpr ⟨u ++ a, v, ?_⟩
  rw [huv]
  simp [List.append_assoc]

theorem infOf_of_append_left {a b l : List Char} (h : infOf (a ++ b) l = true) :
    infOf a l = true := by
  rcases (infOf_iff l (a ++ b)).mp h with ⟨u, v, huv⟩
  refine (infOf_iff l a).mpr ⟨u, b ++ v, ?_⟩
  rw [huv]
  simp [List.append_assoc]

theorem infOf_reverse {p l : List Char} (h : infOf p l = true) :
    infOf p.reverse l.reverse = true := by
  rcases (infOf_iff l p).mp h with ⟨u, v, huv⟩
  refine (infOf_iff l.reverse p.reverse).mpr ⟨v.reverse, u.reverse, ?_⟩
  rw [huv]
  simp [List.reverse_append, List.append_assoc]

theorem infOf_cons_ws {kn : List Char} {c : Char} {l : List Char}
    (hk : ∀ x ∈ kn, isWS x = false) (hkne : kn ≠ [])
    (hc : isWS c = true) (h : infOf kn (c :: l) = true) : infOf kn l = true := by
  rcases (infOf_iff _ kn).mp h with ⟨u, v, huv⟩
  cases u with
  | nil =>
    exfalso
    cases kn with
    | nil => exact hkne rfl
    | cons k0 ks =>
      simp only [List.nil_append, List.cons_append, List.cons.injEq] at huv
      have hk0 := hk k0 (by simp)
      rw [huv.1, hk0] at hc
      cases hc
  | cons x u' =>
    refine (infOf_iff l kn).mpr ⟨u', v, ?_⟩
    simp only [List.cons_append, List.cons.injEq] at huv
    exact huv.2

theorem infOf_unpad_front {kn : List Char}
    (hk : ∀ x ∈ kn, isWS x = false) (hkne : kn ≠ []) :
    ∀ (a l : List Char), (∀ c ∈ a, isWS c = true) →
      infOf kn (a ++ l) = true → infOf kn l = true := by
  intro a
  induction a with
  | nil =>
    intro l _ h
    simpa using h
  | cons c a' ih =>
    intro l ha h
    have h2 := infOf_cons_ws hk hkne (ha c (by simp)) (by simpa using h)
    exact ih l (fun x hx => ha x (by simp [hx])) h2

theorem infOf_padded {kn a f b : List Char}
    (hk : ∀ c ∈ kn, isWS c = false) (hkne : kn ≠ [])
    (ha : ∀ c ∈ a, isWS c = true) (hb : ∀ c ∈ b, isWS c = true)
    (h : infOf kn (a ++ f ++ b) = true) : infOf kn f = true := by
  have h1 : infOf kn (f ++ b) = true := by
    refine infOf_unpad_front hk hkne a (f ++ b) ha ?_
    rw [← List.append_assoc]
    exact h
  have h2 : infOf kn.reverse ((f ++ b).reverse) = true := infOf_reverse h1
  rw [List.reverse_append] at h2
  have hkrev : ∀ x ∈ kn.reverse, isWS x = false :=
    fun x hx => hk x (List.mem_reverse.mp hx)
  have hkrevne : kn.reverse ≠ [] := by
    intro hnil
    exact hkne (by simpa using congrArg List.reverse hnil)
  have hbrev : ∀ c ∈ b.reverse, isWS c = true :=
    fun x hx => hb x (List.mem_reverse.mp hx)
  have h3 : infOf kn.reverse f.reverse = true :=
    infOf_unpad_front hkrev hkrevne b.reverse f.reverse hbrev h2
  have h4 := infOf_reverse h3
  simpa using h4

theorem wsStarM_suffix : ∀ (cs : List Char) (k : List Char → Bool),
    wsStarM k cs = true → ∃ n, k (cs.drop n) = true := by
  intro cs
  induction cs with
  | nil =>
    intro k h
    exact ⟨0, by simpa [wsStarM] using h⟩
  | cons c rest ih =>
    intro k h
    simp only [wsStarM, Bool.or_eq_true, Bool.and_eq_true] at h
    rcases h with h | ⟨_, h⟩
    · exact ⟨0, by simpa using h⟩
    · rcases ih k h with ⟨n, hn⟩
      exact ⟨n + 1, by simpa using hn⟩

theorem pmatch_suffix : ∀ (p : Pat) (cs : List Char) (k : List Char → Bool),
    pmatch p cs k = true → ∃ n, k (cs.drop n) = true := by
  intro p
  induction p with
  | fail =>
    intro cs k h
    simp [pmatch] at h
  | lit s =>
    intro cs k h
    simp only [pmatch, Bool.and_eq_true] at h
    exact ⟨s.length, h.2⟩
  | seq p q ihp ihq =>
    intro cs k h
    simp only [pmatch] at h
    rcases ihp cs _ h with ⟨n, hn⟩
    rcases ihq (cs.drop n) k hn with ⟨m, hm⟩
    rw [List.drop_drop] at hm
    exact ⟨n + m, hm⟩
  | alt p q ihp ihq =>
    intro cs k h
    simp only [pmatch, Bool.or_eq_true] at h
    rcases h with h | h
    · exact ihp cs k h
    · exact ihq cs k h
  | opt p ihp =>
    intro cs k h
    simp only [pmatch, Bool.or_eq_true] at h
    rcases h with h | h
    · exact ihp cs k h
    · exact ⟨0, by simpa using h⟩
  | wsP =>
    intro cs k h
    cases cs with
    | nil => simp [pmatch] at h
    | cons c rest =>
      simp only [pmatch, Bool.and_eq_true] at h
      rcases wsStarM_suffix rest k h.2 with ⟨n, hn⟩
      exact ⟨n + 1, by simpa using hn⟩
  | wsS =>
    intro cs k h
    exact wsStarM_suffix cs k h

theorem pmatch_seq_tail {p q : Pat} {cs : List Char} {k : List Char → Bool}
    (h : pmatch (.seq p q) cs k = true) : ∃ n, pmatch q (cs.drop n) k = true := by
  simp only [pmatch] at h
  exact pmatch_suffix p cs _ h

theorem pmatch_lit_occurs {s cs : List Char} {k : List Char → Bool}
    (h : pmatch (.lit s) cs k = true) : infOf s cs = true := by
  simp only [pmatch, Bool.and_eq_true] at h
  rcases (pfxOf_iff s cs).mp h.1 with ⟨t, rfl⟩
  exact (infOf_iff (s ++ t) s).mpr ⟨[], t, by simp⟩

theorem pmatch_seq_head_lit {s : List Char} {q : Pat} {cs : List Char} {k : List Char → Bool}
    (h : pmatch (.seq (.lit s) q) cs k = true) : infOf s cs = true := by
  simp only [pmatch, Bool.and_eq_true] at h
  rcases (pfxOf_iff s cs).mp h.1 with ⟨t, rfl⟩
  exact (infOf_iff (s ++ t) s).mpr ⟨[], t, by simp⟩

theorem searchGo_match : ∀ (cs : List Char) (p : Pat) (n0 m : Nat),
    searchGo p cs n0 = some m → ∃ k, matchTop p (cs.drop k) = true := by
  intro cs
  induction cs with
  | nil =>
    intro p n0 m h
    by_cases hmt : matchTop p [] = true
    · exact ⟨0, hmt⟩
    · rw [searchGo, if_neg hmt] at h
      cases h
  | cons c rest ih =>
    intro p n0 m h
    by_cases hmt : matchTop p (c :: rest) = true
    · exact ⟨0, hmt⟩
    · rw [searchGo, if_neg hmt] at h
      rcases ih p (n0 + 1) m h with ⟨k, hk⟩
      exact ⟨k + 1, by simpa using hk⟩

theorem firstSearch_match : ∀ (ps : List Pat) (cs : List Char) (m : Nat),
    firstSearch ps cs = some m → ∃ p ∈ ps, ∃ k, matchTop p (cs.drop k) = true := by
  intro ps
  induction ps with
  | nil =>
    intro cs m h
    cases h
  | cons p ps ih =>
    intro cs m h
    simp only [firstSearch] at h
    cases hs : searchPos p cs with
    | some n =>
      rcases searchGo_match cs p 0 n hs with ⟨k, hk⟩
      exact ⟨p, by simp, k, hk⟩
    | none =>
      rw [hs] at h
      rcases ih cs m h with ⟨q, hq, k, hk⟩
      exact ⟨q, by simp [hq], k, hk⟩

theorem pfx_infOf {s l : List Char} (h : pfxOf s l = true) : infOf s l = true := by
  rcases (pfxOf_iff s l).mp h with ⟨t, rfl⟩
  exact (infOf_iff _ _).mpr ⟨[], t, by simp⟩

theorem patP1_kernel {cs : List Char} (h : matchTop patP1 cs = true) :
    infOf "friends".data cs = true := by
  unfold matchTop patP1 at h
  rcases pmatch_seq_tail h with ⟨n1, h1⟩
  rcases pmatch_seq_tail h1 with ⟨n2, h2⟩
  rcases pmatch_seq_tail h2 with ⟨n3, h3⟩
  simp only [litS] at h3
  have h4 := pmatch_lit_occurs h3
  have h5 : infOf ("my ".data ++ "friends".data)
      (List.drop n3 (List.drop n2 (List.drop n1 cs))) = true := by
    have heq : "my ".data ++ "friends".data = "my friends".data := by decide
    rw [heq]
    exact h4
  exact infOf_drop n1 (infOf_drop n2 (infOf_drop n3 (infOf_of_append_right h5)))

theorem patP2_kernel {cs : List Char} (h : matchTop patP2 cs = true) :
    infOf "today".data cs = true := by
  unfold matchTop patP2 at h
  rcases pmatch_seq_tail h with ⟨n1, h1⟩
  rcases pmatch_seq_tail h1 with ⟨n2, h2⟩
  rcases pmatch_seq_tail h2 with ⟨n3, h3⟩
  simp only [litS] at h3
  exact infOf_drop n1 (infOf_drop n2 (infOf_drop n3 (pmatch_lit_occurs h3)))

theorem patP3_kernel {cs : List Char} (h : matchTop patP3 cs = true) :
    infOf "welcome".data cs = true := by
  unfold matchTop patP3 at h
  simp only [litS] at h
  exact pmatch_seq_head_lit h

theorem patP4_kernel {cs : List Char} (h : matchTop patP4 cs = true) :
    infOf "morning".data cs = true ∨ infOf "afternoon".data cs = true ∨
      infOf "evening".data cs = true := by
  unfold matchTop patP4 at h
  rcases pmatch_seq_tail h with ⟨n1, h1⟩
  simp only [altW, List.map, altL, litS, pmatch, Bool.or_eq_true] at h1
  rcases h1 with h1 | h1 | h1
  · exact Or.inl (infOf_drop n1 (pfx_infOf (by simpa using h1)))
  · exact Or.inr (Or.inl (infOf_drop n1 (pfx_infOf (by simpa using h1))))
  · exact Or.inr (Or.inr (infOf_drop n1 (pfx_infOf (by simpa using h1))))

theorem patP5_kernel {cs : List Char} (h : matchTop patP5 cs = true) :
    infOf "let".data cs = true := by
  unfold matchTop patP5 at h
  have h1 := pmatch_seq_head_lit h
  exact infOf_of_append_left h1

theorem patP6_kernel {cs : List Char} (h : matchTop patP6 cs = true) :
    infOf "we".data cs = true := by
  unfold matchTop patP6 at h
  have h1 := pmatch_seq_head_lit h
  rw [List.append_assoc] at h1
  exact infOf_of_append_left h1

theorem patP7_kernel {cs : List Char} (h : matchTop patP7 cs = true) :
    infOf "going".data cs = true := by
  unfold matchTop patP7 at h
  simp only [litS] at h
  exact pmatch_seq_head_lit h

theorem patP8_kernel {cs : List Char} (h : matchTop patP8 cs = true) :
    infOf "hello".data cs = true := by
  unfold matchTop patP8 at h
  simp only [litS] at h
  exact pmatch_seq_head_lit h

theorem stripCh_decomp (s : List Char) :
    ∃ a b, s = a ++ stripCh s ++ b ∧ (∀ c ∈ a, isWS c = true) ∧ (∀ c ∈ b, isWS c = true) := by
  refine ⟨s.takeWhile isWS, ((s.dropWhile isWS).reverse.takeWhile isWS).reverse, ?_, ?_, ?_⟩
  · have ht : s.dropWhile isWS =
        stripCh s ++ ((s.dropWhile isWS).reverse.takeWhile isWS).reverse := by
      unfold stripCh
      calc s.dropWhile isWS
          = (s.dropWhile isWS).reverse.reverse := (List.reverse_reverse _).symm
        _ = ((s.dropWhile isWS).reverse.takeWhile isWS ++
              (s.dropWhile isWS).reverse.dropWhile isWS).reverse := by
            rw [List.takeWhile_append_dropWhile]
        _ = ((s.dropWhile isWS).reverse.dropWhile isWS).reverse ++
              ((s.dropWhile isWS).reverse.takeWhile isWS).reverse := by
            rw [List.reverse_append]
    conv_lhs => rw [← List.takeWhile_append_dropWhile (p := isWS) (l := s), ht]
    rw [List.append_assoc]
  · intro c hc
    exact List.mem_takeWhile_imp hc
  · intro c hc
    rw [List.mem_reverse] at hc
    exact List.mem_takeWhile_imp hc

theorem lowC_ws {c : Char} (h : isWS c = true) : lowC c = c := by
  simp only [isWS, Bool.or_eq_true, beq_iff_eq] at h
  rcases h with ((((h | h) | h) | h) | h) | h <;> subst h <;> decide

theorem lowerL_ws_id (a : List Char) (h : ∀ c ∈ a, isWS c = true) : lowerL a = a := by
  induction a with
  | nil => rfl
  | cons c t ih =>
    unfold lowerL at ih ⊢
    simp only [List.map_cons]
    rw [lowC_ws (h c (by simp)), ih (fun x hx => h x (by simp [hx]))]

theorem filler_no_kernel :
    ∀ f ∈ fillerList,
      infOf "friends".data f = false ∧ infOf "today".data f = false ∧
      infOf "welcome".data f = false ∧ infOf "morning".data f = false ∧
      infOf "afternoon".data f = false ∧ infOf "evening".data f = false ∧
      infOf "let".data f = false ∧ infOf "we".data f = false ∧
      infOf "going".data f = false ∧ infOf "hello".data f = false := by
  decide

theorem filler_no_start (s : List Char) (hf : lowerL (stripCh s) ∈ fillerList) :
    firstStartMatch (lowerL s) = none := by
  cases hm : firstStartMatch (lowerL s) with
  | none => rfl
  | some m =>
    exfalso
    rcases firstSearch_match startPats (lowerL s) m hm with ⟨p, hp, k, hk⟩
    rcases stripCh_decomp s with ⟨a, b, hs, ha, hb⟩
    have hls : lowerL s = a ++ lowerL (stripCh s) ++ b := by
      conv_lhs => rw [hs]
      unfold lowerL
      rw [List.map_append, List.map_append]
      rw [show List.map lowC a = a from lowerL_ws_id a ha]
      rw [show List.map lowC b = b from lowerL_ws_id b hb]
    have hker := filler_no_kernel (lowerL (stripCh s)) hf
    have htrans : ∀ kn : List Char, (∀ c ∈ kn, isWS c = false) → kn ≠ [] →
        infOf kn ((lowerL s).drop k) = true → infOf kn (lowerL (stripCh s)) = true := by
      intro kn hkn hkne hocc
      have h2 : infOf kn (lowerL s) = true := infOf_drop k hocc
      rw [hls] at h2
      exact infOf_padded hkn hkne ha hb h2
    simp only [startPats, List.mem_cons, List.not_mem_nil, or_false] at hp
    rcases hp with rfl | rfl | rfl | rfl | rfl | rfl | rfl | rfl
    · have h1 := htrans _ (by decide) (by decide) (patP1_kernel hk)
      rw [hker.1] at h1
      cases h1
    · have h1 := htrans _ (by decide) (by decide) (patP2_kernel hk)
      rw [hker.2.1] at h1
      cases h1
    · have h1 := htrans _ (by decide) (by decide) (patP3_kernel hk)
      rw [hker.2.2.1] at h1
      cases h1
    · rcases patP4_kernel hk with h1 | h1 | h1
      · have h2 := htrans _ (by decide) (by decide) h1
        rw [hker.2.2.2.1] at h2
        cases h2
      · have h2 := htrans _ (by decide) (by decide) h1
        rw [hker.2.2.2.2.1] at h2
        cases h2
      · have h2 := htrans _ (by decide) (by decide) h1
        rw [hker.2.2.2.2.2.1] at h2
        cases h2
    · have h1 := htrans _ (by decide) (by decide) (patP5_kernel hk)
      rw [hker.2.2.2.2.2.2.1] at h1
      cases h1
    · have h1 := htrans _ (by decide) (by decide) (patP6_kernel hk)
      rw [hker.2.2.2.2.2.2.2.1] at h1
      cases h1
    · have h1 := htrans _ (by decide) (by decide) (patP7_kernel hk)
      rw [hker.2.2.2.2.2.2.2.2.1] at h1
      cases h1
    · have h1 := htrans _ (by decide) (by decide) (patP8_kernel hk)
      rw [hker.2.2.2.2.2.2.2.2.2] at h1
      cases h1

theorem filler_few_words :
    ∀ f ∈ fillerList, (alphaWords f).length < 3 := by
  decide

theorem filler_not_coherent (s : List Char) (hf : lowerL (stripCh s) ∈ fillerList) :
    isCoherentEnglish s = false := by
  simp only [isCoherentEnglish]
  by_cases h10 : (stripCh s).length < 10
  · rw [if_pos h10]
  · rw [if_neg h10]
    have hlen : (alphaWords (lowerL (stripCh s))).length < 3 :=
      filler_few_words _ hf
    rw [if_pos hlen]

theorem startGo_all_none (all : List (List Char)) :
    ∀ (rest : List (List Char)) (i si : Nat),
      (∀ s ∈ rest, firstStartMatch (lowerL s) = none ∧ isCoherentEnglish s = false) →
      startGo all rest i si = (si, 0) := by
  intro rest
  induction rest with
  | nil => intro i si h; rfl
  | cons s rest' ih =>
    intro i si h
    have hs := h s (by simp)
    simp only [startGo, hs.1]
    have hc : (isCoherentEnglish s && decide (50 < s.length)) = false := by
      rw [hs.2]
      rfl
    rw [if_neg (by rw [hc]; simp)]
    exact ih (i + 1) si (fun x hx => h x (by simp [hx]))

theorem phaseB_fillers (sents : List (List Char))
    (hall : ∀ s ∈ sents, stripLower s ∈ fillerList) :
    ∀ e, e ≤ sents.length → phaseB sents 0 e = 0 := by
  intro e
  induction e with
  | zero => intro h; rfl
  | succ e ih =>
    intro h
    have he : e < sents.length := by omega
    have hmem : sents.getD e [] ∈ sents := by
      cases hg : sents.get? e with
      | none =>
        exfalso
        rw [List.get?_eq_none] at hg
        omega
      | some x =>
        rw [getD_of_get? sents e x [] hg]
        exact List.get?_mem hg
    have hdrop : phaseBDrop (stripLower (sents.getD e [])) = true := by
      unfold phaseBDrop
      have hc : fillerList.contains (stripLower (sents.getD e [])) = true := by
        have hm := hall _ hmem
        change fillerList.elem (stripLower (sents.getD e [])) = true
        exact List.elem_iff.mpr hm
      rw [hc]
      simp
    simp only [phaseB]
    rw [if_pos (by omega : (0 : Nat) < e + 1)]
    rw [if_pos hdrop]
    exact ih (by omega)

/-- C8: filler-only input yields the empty output: whenever every sentence
of the segmented normalized input strips and lowercases to one of the
filler phrases, Phase B strips the whole kept range back to the start
index and the assembler returns the empty string. -/
theorem c8_filler_only_empty (s : String)
    (h : ∀ t ∈ sentencesOf (normalizeChars s.data), stripLower t ∈ fillerList) :
    clean_transcript s = "" := by
  have hstart : findStart (sentencesOf (normalizeChars s.data)) = (0, 0) := by
    unfold findStart
    refine startGo_all_none _ _ 0 0 ?_
    intro t ht
    exact ⟨filler_no_start t (h t ht), filler_not_coherent t (h t ht)⟩
  have heA := endAfterA_le (sentencesOf (normalizeChars s.data))
  have hB : phaseB (sentencesOf (normalizeChars s.data)) 0
      (endAfterA (sentencesOf (normalizeChars s.data))) = 0 :=
    phaseB_fillers _ h _ heA
  have hchars : cleanChars s.data = [] := by
    simp only [cleanChars, hstart, hB]
    rfl
  unfold clean_transcript
  rw [hchars]

/-- Witness for C8 at a concrete filler-only input. -/
theorem c8_filler_only_empty_witness : clean_transcript c8Input = "" := by
  refine c8_filler_only_empty c8Input ?_
  decide
